import Mathlib

/-!
Verification of the spfnet routing core against its specification.

This file gives a shallow embedding, in Lean 4, of the parts of the Go
repository spfnet that the specification's claims are about:

* the `Topology` graph (nodes and symmetric weighted edges, stored as
  string-keyed maps; embedded here as association lists),
* the topology-sync handlers (`handleTopologySync`, `handleLinkUpdate`),
* the two SPF (Dijkstra) calculators (`internal/route/spf.go` with lazy
  deletion of stale priority-queue entries, and the older calculator with
  an explicit visited set),
* the forward-manager packet construction and delivery check, and
* the gRPC server's probe / packet-id / add-link logic.

Conventions of the embedding:

* Go `map[string]T` becomes an association list `List (String × T)` with
  update-in-place (`aset`) and deletion (`aerase`); Go's unordered map
  iteration becomes iteration in list order, a deterministic refinement
  that is irrelevant to the keyed results the claims talk about.
* Go `float64` edge costs become exact rationals `ℚ`; the single use of
  `math.Inf(1)` (the initial Dijkstra distance) becomes `⊤` in
  `WithTop ℚ`.  A Go map lookup of an absent key yields the zero value,
  embedded by `Option.getD`.
* The gods priority queue pops a minimal-priority entry; the embedding
  pops the leftmost minimal entry, a deterministic refinement of the
  heap's unspecified tie order.
* The Go SPF loop runs until its queue is empty; the embedding recurses
  on an explicit fuel argument and is proved to empty the queue within
  the supplied fuel, so the fuelled function returns exactly the state
  the Go loop ends in.
* Locks, logging, gRPC transport and the neighbor cache (which is
  observationally the identity, `GetNeighbors` being pure) are dropped.
-/

namespace Spfnet

/-- Association-list lookup, embedding a Go `map[string]V` read. -/
def alookup {β : Type} : List (String × β) → String → Option β
  | [], _ => none
  | (k, v) :: r, x => if k = x then some v else alookup r x

/-- Association-list update-or-insert, embedding a Go map assignment. -/
def aset {β : Type} : List (String × β) → String → β → List (String × β)
  | [], x, v => [(x, v)]
  | (k, w) :: r, x, v => if k = x then (x, v) :: r else (k, w) :: aset r x v

/-- Association-list key removal, embedding a Go `delete`. -/
def aerase {β : Type} : List (String × β) → String → List (String × β)
  | [], _ => []
  | (k, w) :: r, x => if k = x then aerase r x else (k, w) :: aerase r x

/-- Keys of an association list. -/
def akeys {β : Type} (m : List (String × β)) : List String :=
  m.map Prod.fst

/-- Node liveness status, from the `NodeStatus` constants. -/
inductive NodeStatus
  | unknown
  | alive
  | suspect
  | failed
  | left
deriving DecidableEq

/-- Identity record of a participant, from struct `NodeInfo`. -/
structure NodeInfo where
  ID : String
  IP : String
  Port : Int
  RPCAddr : String
  Status : NodeStatus
deriving DecidableEq

/-- The in-memory undirected weighted graph, from struct `Topology`:
`nodes` maps id to `NodeInfo`, `edges` maps id to a map from id to cost. -/
structure Topology where
  nodes : List (String × NodeInfo)
  edges : List (String × List (String × ℚ))
deriving DecidableEq

/-- Creates the inner edge map for a key when it is nil, embedding the
`if t.edges[k] == nil` guards of `AddNode` and `UpdateLink`. -/
def ensureRow (e : List (String × List (String × ℚ))) (k : String) :
    List (String × List (String × ℚ)) :=
  if (alookup e k).isSome then e else e ++ [(k, [])]

/-- Applies a function to the inner map stored at one key. -/
def rowModify : List (String × List (String × ℚ)) → String →
    (List (String × ℚ) → List (String × ℚ)) → List (String × List (String × ℚ))
  | [], _, _ => []
  | (k', w) :: r, k, f =>
    (if k' = k then (k', f w) else (k', w)) :: rowModify r k f

/-- Embeds `Topology.AddNode`: store the `NodeInfo` under its id and make
sure an (empty) adjacency row exists for it. -/
def Topology.AddNode (t : Topology) (node : NodeInfo) : Topology :=
  { nodes := aset t.nodes node.ID node, edges := ensureRow t.edges node.ID }

/-- Embeds `Topology.UpdateLink`: create both endpoint rows on demand and
write the cost in both directions (undirected graph). -/
def Topology.UpdateLink (t : Topology) (from_ to_ : String) (cost : ℚ) : Topology :=
  let e1 := ensureRow (ensureRow t.edges from_) to_
  let e2 := rowModify e1 from_ (fun r => aset r to_ cost)
  let e3 := rowModify e2 to_ (fun r => aset r from_ cost)
  { t with edges := e3 }

/-- Embeds `Topology.RemoveLink`: delete the edge in both directions. -/
def Topology.RemoveLink (t : Topology) (from_ to_ : String) : Topology :=
  let e1 := rowModify t.edges from_ (fun r => aerase r to_)
  let e2 := rowModify e1 to_ (fun r => aerase r from_)
  { t with edges := e2 }

/-- Embeds `Topology.RemoveNode`: drop the node record, delete the edge
`neighbor → name` for every neighbor in the node's own row, then drop the
node's whole row. -/
def Topology.RemoveNode (t : Topology) (nodeName : String) : Topology :=
  let row := (alookup t.edges nodeName).getD []
  let e1 := row.foldl (fun acc nb => rowModify acc nb.1 (fun r => aerase r nodeName)) t.edges
  { nodes := aerase t.nodes nodeName, edges := aerase e1 nodeName }

/-- Embeds `Topology.GetCost`; `none` is Go's `(0, false)` absent result. -/
def Topology.GetCost (t : Topology) (from_ to_ : String) : Option ℚ :=
  (alookup t.edges from_).bind (fun r => alookup r to_)

/-- Embeds `Topology.GetNeighbors`: an independent copy of a node's row
(an absent row reads as the empty map). -/
def Topology.GetNeighbors (t : Topology) (nodeName : String) : List (String × ℚ) :=
  (alookup t.edges nodeName).getD []

/-- Embeds `Topology.GetAllNodes`: the list of stored `NodeInfo` values. -/
def Topology.GetAllNodes (t : Topology) : List NodeInfo :=
  t.nodes.map Prod.snd

/-- Symmetry of the stored adjacency, the documented `Topology` invariant
(`edges[a][b] = c` iff `edges[b][a] = c`); it holds of every topology the
program can build, since all mutators write or delete both directions. -/
def Topology.Symm (t : Topology) : Prop :=
  ∀ a b : String, t.GetCost a b = t.GetCost b a

/-- Gossip link event, from struct `LinkUpdateEvent`. -/
structure LinkUpdateEvent where
  From : String
  To : String
  Cost : ℚ
  Op : String
deriving DecidableEq

/-- One link of a full topology sync, from struct `TopologyLinkEntry`. -/
structure TopologyLinkEntry where
  From : String
  To : String
  Cost : ℚ
deriving DecidableEq

/-- Full topology sync event, from struct `TopologySyncEvent`. -/
structure TopologySyncEvent where
  NodeID : String
  Links : List TopologyLinkEntry
deriving DecidableEq

/-- Embeds `TopologySync.handleLinkUpdate`: the graph mutation selected by
the event's `Op` (the handler afterwards always fires the change
notification, which has no graph effect and is not modelled). -/
def handleLinkUpdate (event : LinkUpdateEvent) (t : Topology) : Topology :=
  if event.Op = "add" ∨ event.Op = "update" then
    t.UpdateLink event.From event.To event.Cost
  else if event.Op = "remove" then
    t.RemoveLink event.From event.To
  else t

/-- Embeds the per-link body of the merge loop in
`TopologySync.handleTopologySync`: adopt an absent link, adopt a strictly
cheaper link, otherwise keep the local state; the boolean is the
`topologyChanged` flag being threaded through. -/
def syncStep (t : Topology) (changed : Bool) (link : TopologyLinkEntry) : Topology × Bool :=
  match t.GetCost link.From link.To with
  | none => (t.UpdateLink link.From link.To link.Cost, true)
  | some existingCost =>
    if existingCost ≠ link.Cost then
      if link.Cost < existingCost then
        (t.UpdateLink link.From link.To link.Cost, true)
      else (t, changed)
    else (t, changed)

/-- Embeds `TopologySync.handleTopologySync`.  The returned boolean is
whether `triggerTopologyChange` is invoked (the final `topologyChanged`
flag); an event carrying the local node's own id is dropped. -/
def handleTopologySync (selfID : String) (event : TopologySyncEvent) (t : Topology) :
    Topology × Bool :=
  if event.NodeID = selfID then (t, false)
  else event.Links.foldl (fun st link => syncStep st.1 st.2 link) (t, false)

/-- Topology evolution of one merge step, ignoring the changed flag
(which the topology component of `syncStep` does not depend on). -/
def syncStepT (t : Topology) (link : TopologyLinkEntry) : Topology :=
  (syncStep t false link).1

/-- Whether one merge step adopts its link: the link is locally absent or
strictly cheaper than the local cost. -/
def adoptCondB (t : Topology) (link : TopologyLinkEntry) : Bool :=
  match t.GetCost link.From link.To with
  | none => true
  | some existingCost => decide (link.Cost < existingCost)

/-- Whether merging a list of links, in order, adopts at least one. -/
def adoptsAnyB : Topology → List TopologyLinkEntry → Bool
  | _, [] => false
  | t, link :: rest => adoptCondB t link || adoptsAnyB (syncStepT t link) rest

/-- Wire packet, from the `Packet` proto message. -/
structure Packet where
  Source : String
  Destination : String
  PacketId : String
  Payload : List UInt8
  NextHop : String
  VisitedNodes : List String
deriving DecidableEq

/-- Packet id minted by `ForwardManager.SendPacket`:
`fmt.Sprintf("pkt-%s-%d", fm.nodeID, time.Now().UnixNano())`. -/
def fmPacketId (nodeID : String) (nanos : Int) : String :=
  "pkt-" ++ nodeID ++ "-" ++ toString nanos

/-- Packet minted by `ForwardManager.SendPacket` before it enters the
forwarding routine: source is the local node, `VisitedNodes` starts as
the singleton list holding the local node. -/
def fmSendPacketMk (nodeID destination : String) (payload : List UInt8) (nanos : Int) :
    Packet :=
  { Source := nodeID, Destination := destination,
    PacketId := fmPacketId nodeID nanos, Payload := payload,
    NextHop := "", VisitedNodes := [nodeID] }

/-- Local effect of `ForwardManager.HandleIncomingPacket` on the packet
and the delivery decision: append the local node to `VisitedNodes`; the
boolean is whether delivery is recorded (`packet.Destination == self`).
When it is false the packet instead enters the forwarding routine. -/
def handleIncomingLocal (selfID : String) (packet : Packet) : Packet × Bool :=
  let packet' := { packet with VisitedNodes := packet.VisitedNodes ++ [selfID] }
  (packet', packet'.Destination = selfID)

/-- Packet id minted by the control-plane `ControlServer.SendPacket` when
the request's packet has no id:
`fmt.Sprintf("pkt-%d-%s", time.Now().UnixNano(), s.NodeID)`. -/
def controlPacketId (nodeID : String) (nanos : Int) : String :=
  "pkt-" ++ toString nanos ++ "-" ++ nodeID

/-- Id-assignment step of `ControlServer.SendPacket`: a packet arriving
with a non-empty id keeps it, otherwise the control node mints one. -/
def controlAssignId (packet : Packet) (selfNodeID : String) (nanos : Int) : Packet :=
  if packet.PacketId = "" then
    { packet with PacketId := controlPacketId selfNodeID nanos }
  else packet

/-- Response of the data-plane probe, from the `ProbeResponse` proto. -/
structure ProbeResponse where
  Success : Bool
  RttMs : Int
  Cost : ℚ
deriving DecidableEq

/-- Embeds `NodeServer.ProbeLinkQuality`.  The two random draws are taken
as parameters: `rInt` stands for `rand.Intn(50)` (a natural below 50) and
`rFloat` for `rand.Float64()` (a value in `[0,1)`).  With `self_debug`
unset the Go code panics (`none` here): real probing is unimplemented. -/
def ProbeLinkQuality (selfDebug : Bool) (rInt : ℕ) (rFloat : ℚ) : Option ProbeResponse :=
  if selfDebug then
    some { Success := true, RttMs := 1 + (rInt : Int), Cost := 1 + rFloat * 19 }
  else none

/-- Cost selection of `ControlServer.AddLink`: probe when `auto_probe` is
set or the requested cost is non-positive, else use the request's cost.
`probeResult` is the outcome of `probeLinkCost` (`none` is a probe
failure, after which `AddLink` returns without touching the edge). -/
def addLinkFinalCost (reqCost : ℚ) (autoProbe : Bool) (probeResult : Option ℚ) : Option ℚ :=
  if autoProbe || decide (reqCost ≤ 0) then probeResult else some reqCost

/-- Topology effect of `ControlServer.AddLink`: the neighbor's `NodeInfo`
is inserted first (status unknown, `rpc_addr` set), then the edge is
written only if a final cost was determined. -/
def addLinkApply (selfID : String) (neighbor neighborAddress : String)
    (reqCost : ℚ) (autoProbe : Bool) (probeResult : Option ℚ) (t : Topology) : Topology :=
  let t1 := t.AddNode
    { ID := neighbor, IP := "", Port := 0, RPCAddr := neighborAddress,
      Status := NodeStatus.unknown }
  match addLinkFinalCost reqCost autoProbe probeResult with
  | none => t1
  | some finalCost => t1.UpdateLink selfID neighbor finalCost

/-- Directed walks of a given total cost through an adjacency function
(`adj u` being the neighbor list `GetNeighbors` would return for `u`).
This is the mathematical yardstick the SPF claims are measured against. -/
inductive IsWalk (adj : String → List (String × ℚ)) : String → String → ℚ → Prop
  | nil (v : String) : IsWalk adj v v 0
  | cons {u v w : String} {c cw : ℚ} :
      (v, c) ∈ adj u → IsWalk adj v w cw → IsWalk adj u w (c + cw)

/-- A value is the shortest-path cost when some walk attains it and no
walk beats it. -/
def IsShortest (adj : String → List (String × ℚ)) (s d : String) (q : ℚ) : Prop :=
  IsWalk adj s d q ∧ ∀ c, IsWalk adj s d c → q ≤ c

/-- Reachability through the adjacency function. -/
def ReachableW (adj : String → List (String × ℚ)) (s d : String) : Prop :=
  ∃ c, IsWalk adj s d c

/-- Every neighbor cost listed by the adjacency function is non-negative
(the claims' finite-and-non-negative cost hypothesis). -/
def NonnegAdj (adj : String → List (String × ℚ)) : Prop :=
  ∀ u p, p ∈ adj u → 0 ≤ p.2

/-- The adjacency function of a topology, as the SPF calculators read it. -/
def Topology.adj (t : Topology) : String → List (String × ℚ) :=
  fun v => t.GetNeighbors v

/-- Non-negativity of every stored edge cost of a topology (decidable,
unlike `NonnegAdj` which quantifies over all strings). -/
def Topology.NonnegCosts (t : Topology) : Prop :=
  ∀ r ∈ t.edges, ∀ p ∈ r.2, (0 : ℚ) ≤ p.2

/-- Removes the leftmost minimal-priority entry of the queue, embedding a
`Dequeue` of the gods binary heap (which pops some minimal entry; the
leftmost choice is this embedding's fixed tie order). -/
def popMin : List (String × ℚ) → Option ((String × ℚ) × List (String × ℚ))
  | [] => none
  | e :: rest =>
    match popMin rest with
    | none => some (e, [])
    | some (m, rest') => if e.2 ≤ m.2 then some (e, rest) else some (m, e :: rest')

/-- Least priority present in the queue (`⊤` when empty). -/
def pqMinW (pq : List (String × ℚ)) : WithTop ℚ :=
  pq.foldr (fun e m => min (↑e.2) m) ⊤

/-- Reads the tentative-distance map as the Go code does: an absent key
yields the `float64` zero value. -/
def distLookup (dist : List (String × WithTop ℚ)) (v : String) : WithTop ℚ :=
  (alookup dist v).getD ((0 : ℚ) : WithTop ℚ)

/-- Routing entry of the new calculator, from the `Route` struct used by
`internal/route/spf.go` (destination, next hop, total cost, full path). -/
structure Route where
  Destination : String
  NextHop : String
  Cost : ℚ
  Path : List String
deriving DecidableEq

/-- Routing table keyed by destination, from struct `RouteTable`. -/
structure RouteTable where
  sourceNode : String
  routes : List (String × Route)
deriving DecidableEq

/-- Embeds `NewRouteTable`. -/
def NewRouteTable (sourceNode : String) : RouteTable :=
  { sourceNode := sourceNode, routes := [] }

/-- Embeds `RouteTable.AddRoute`: upsert keyed by the destination. -/
def RouteTable.AddRoute (rt : RouteTable) (route : Route) : RouteTable :=
  { rt with routes := aset rt.routes route.Destination route }

/-- Embeds `RouteTable.GetRoute` (`none` is the route-not-found error). -/
def RouteTable.GetRoute (rt : RouteTable) (destination : String) : Option Route :=
  alookup rt.routes destination

/-- Loop state of the new SPF calculator (`internal/route/spf.go`):
tentative distances, next hops, predecessors, and the priority queue. -/
structure SpfState where
  dist : List (String × WithTop ℚ)
  nextHop : List (String × String)
  previous : List (String × String)
  pq : List (String × ℚ)

/-- One relaxation of the new calculator's neighbor loop: when the path
through the dequeued node `u` (at cost `p`) improves on the recorded
distance of the neighbor, record distance, predecessor and next hop (the
neighbor itself when `u` is the source, else `u`'s next hop) and enqueue
the neighbor at the new cost. -/
def relaxStep (s u : String) (p : ℚ) (st : SpfState) (wc : String × ℚ) : SpfState :=
  let newCost := p + wc.2
  if (↑newCost : WithTop ℚ) < distLookup st.dist wc.1 then
    { dist := aset st.dist wc.1 ↑newCost,
      previous := aset st.previous wc.1 u,
      nextHop :=
        if u = s then aset st.nextHop wc.1 wc.1
        else aset st.nextHop wc.1 ((alookup st.nextHop u).getD ""),
      pq := st.pq ++ [(wc.1, newCost)] }
  else st

/-- The whole neighbor loop of one dequeue. -/
def relaxAll (s u : String) (p : ℚ) (neigh : List (String × ℚ)) (st : SpfState) : SpfState :=
  neigh.foldl (relaxStep s u p) st

/-- The dequeue loop of the new calculator, on explicit fuel: pop the
minimal entry, skip it when its priority exceeds the recorded distance
(lazy deletion of stale entries), otherwise relax the node's neighbors.
The Go loop runs until the queue is empty; `spf_loop_tm` below proves the
queue empties within the fuel `ComputeRoutes` supplies, so this function
returns the state the Go loop ends in. -/
def spfLoop (adj : String → List (String × ℚ)) (s : String) : ℕ → SpfState → SpfState
  | 0, st => st
  | Nat.succ fuel, st =>
    match popMin st.pq with
    | none => st
    | some (e, rest) =>
      if distLookup st.dist e.1 < ↑e.2 then
        spfLoop adj s fuel { st with pq := rest }
      else
        spfLoop adj s fuel (relaxAll s e.1 e.2 (adj e.1) { st with pq := rest })

/-- Initial state of the new calculator: every known node at distance
`+∞`, the source at `0`, and the source enqueued at priority `0`. -/
def spfInit (allIDs : List String) (s : String) : SpfState :=
  { dist := aset (allIDs.foldl (fun m i => aset m i ⊤) []) s ((0 : ℚ) : WithTop ℚ),
    nextHop := [], previous := [], pq := [(s, 0)] }

/-- Fuel supplied to `spfLoop`: one more than the sum, over the distance
map's keys, of one plus the node's degree.  `spf_loop_tm` proves this
bounds the number of loop iterations. -/
def spfFuel (dist : List (String × WithTop ℚ)) (adj : String → List (String × ℚ)) : ℕ :=
  1 + (dist.map (fun kv => 1 + (adj kv.1).length)).sum

/-- Path-reconstruction chase of `ComputeRoutes` (`for at := dest; at !=
""; at = previous[at]`), on fuel; the fuel covers every chain the
algorithm can produce, an absent predecessor reading as `""`. -/
def buildPathAux (previous : List (String × String)) (s : String) :
    ℕ → String → List String → List String
  | 0, _, acc => acc
  | Nat.succ fuel, at_, acc =>
    if at_ = "" then acc
    else if at_ = s then acc ++ [at_]
    else buildPathAux previous s fuel ((alookup previous at_).getD "") (acc ++ [at_])

/-- Full path reconstruction: chase predecessors then reverse. -/
def buildPath (previous : List (String × String)) (s d : String) : List String :=
  (buildPathAux previous s (previous.length + 2) d []).reverse

/-- Result collection of the new calculator: for every distance entry,
skip the source and the unreachable (`+∞`), and add a route carrying the
recorded next hop, the final cost and the reconstructed path. -/
def collectRoutes (s : String) (st : SpfState) : RouteTable :=
  st.dist.foldl
    (fun rt kv =>
      if kv.1 = s then rt
      else
        match kv.2 with
        | none => rt
        | some q =>
          rt.AddRoute
            { Destination := kv.1,
              NextHop := (alookup st.nextHop kv.1).getD "",
              Cost := q,
              Path := buildPath st.previous s kv.1 })
    (NewRouteTable s)

/-- Embeds `SPFCalculator.ComputeRoutes` of `internal/route/spf.go` (the
new, lazy-deletion calculator).  The neighbor cache of the Go code is
dropped: `GetNeighbors` is pure, so the cache is the identity. -/
def ComputeRoutes (sourceNodeID : String) (topology : Topology) : RouteTable :=
  let allIDs := topology.GetAllNodes.map NodeInfo.ID
  let st0 := spfInit allIDs sourceNodeID
  collectRoutes sourceNodeID
    (spfLoop topology.adj sourceNodeID (spfFuel st0.dist topology.adj) st0)

/-- Routing entry of the older calculator (destination, next hop, cost;
no path field), from the `Route` struct it stores. -/
structure RouteOld where
  Destination : String
  NextHop : String
  Cost : ℚ
deriving DecidableEq

/-- Routing table of the older calculator. -/
structure RouteTableOld where
  sourceNode : String
  routes : List (String × RouteOld)
deriving DecidableEq

/-- Upsert of the older routing table, keyed by destination. -/
def RouteTableOld.AddRoute (rt : RouteTableOld) (route : RouteOld) : RouteTableOld :=
  { rt with routes := aset rt.routes route.Destination route }

/-- Lookup of the older routing table. -/
def RouteTableOld.GetRoute (rt : RouteTableOld) (destination : String) : Option RouteOld :=
  alookup rt.routes destination

/-- Loop state of the older SPF calculator: tentative distances, next
hops, the visited set, and the priority queue. -/
structure SpfStateOld where
  dist : List (String × WithTop ℚ)
  nextHop : List (String × String)
  visited : List String
  pq : List (String × ℚ)

/-- One relaxation of the older calculator's neighbor loop; identical to
the new calculator's relaxation except that no predecessor is recorded. -/
def relaxStepOld (s u : String) (p : ℚ) (st : SpfStateOld) (wc : String × ℚ) : SpfStateOld :=
  let newCost := p + wc.2
  if (↑newCost : WithTop ℚ) < distLookup st.dist wc.1 then
    { dist := aset st.dist wc.1 ↑newCost,
      nextHop :=
        if u = s then aset st.nextHop wc.1 wc.1
        else aset st.nextHop wc.1 ((alookup st.nextHop u).getD ""),
      visited := st.visited,
      pq := st.pq ++ [(wc.1, newCost)] }
  else st

/-- The whole neighbor loop of one dequeue of the older calculator. -/
def relaxAllOld (s u : String) (p : ℚ) (neigh : List (String × ℚ)) (st : SpfStateOld) :
    SpfStateOld :=
  neigh.foldl (relaxStepOld s u p) st

/-- The dequeue loop of the older calculator, on explicit fuel: pop the
minimal entry, skip already-visited nodes, otherwise mark the node
visited and relax its neighbors.  `spf_loop_old_tm` below proves the
queue empties within the fuel `ComputeRoutesOld` supplies. -/
def spfLoopOld (adj : String → List (String × ℚ)) (s : String) : ℕ → SpfStateOld → SpfStateOld
  | 0, st => st
  | Nat.succ fuel, st =>
    match popMin st.pq with
    | none => st
    | some (e, rest) =>
      if e.1 ∈ st.visited then
        spfLoopOld adj s fuel { st with pq := rest }
      else
        spfLoopOld adj s fuel
          (relaxAllOld s e.1 e.2 (adj e.1)
            { st with pq := rest, visited := e.1 :: st.visited })

/-- Initial state of the older calculator. -/
def spfInitOld (allIDs : List String) (s : String) : SpfStateOld :=
  { dist := aset (allIDs.foldl (fun m i => aset m i ⊤) []) s ((0 : ℚ) : WithTop ℚ),
    nextHop := [], visited := [], pq := [(s, 0)] }

/-- Result collection of the older calculator (no path field). -/
def collectRoutesOld (s : String) (st : SpfStateOld) : RouteTableOld :=
  st.dist.foldl
    (fun rt kv =>
      if kv.1 = s then rt
      else
        match kv.2 with
        | none => rt
        | some q =>
          rt.AddRoute
            { Destination := kv.1,
              NextHop := (alookup st.nextHop kv.1).getD "",
              Cost := q })
    { sourceNode := s, routes := [] }

/-- Embeds the older `SPFCalculator.ComputeRoutes` (the visited-set
variant), sharing the topology, queue and distance-map embeddings with
the new calculator. -/
def ComputeRoutesOld (sourceNodeID : String) (topology : Topology) : RouteTableOld :=
  let allIDs := topology.GetAllNodes.map NodeInfo.ID
  let st0 := spfInitOld allIDs sourceNodeID
  collectRoutesOld sourceNodeID
    (spfLoopOld topology.adj sourceNodeID (spfFuel st0.dist topology.adj) st0)

/-- The ids of a topology's known nodes, as `ComputeRoutes` collects them. -/
def allIDsOf (t : Topology) : List String :=
  t.GetAllNodes.map NodeInfo.ID

/-- Adjacency restricted to a key set: only nodes of the set expand their
outgoing edges.  This is the graph the SPF loop effectively explores: a
node absent from the distance map is never enqueued (its default
distance, the Go zero value `0.0`, blocks every non-negative relaxation),
so its outgoing edges are never traversed. -/
def adjRestrict (adj : String → List (String × ℚ)) (keyset : List String) :
    String → List (String × ℚ) :=
  fun v => if v ∈ keyset then adj v else []

/-- A node whose recorded finite distance can no longer shrink any
neighbor: every outgoing edge is already relaxed. -/
def ClosedAt (adj : String → List (String × ℚ)) (dist : List (String × WithTop ℚ))
    (v : String) (q : ℚ) : Prop :=
  ∀ wc ∈ adj v, distLookup dist wc.1 ≤ ((q + wc.2 : ℚ) : WithTop ℚ)

/-- A settled node of the lazy-deletion loop: finite recorded distance,
closed, and not above the least pending priority. -/
def ClosedM (adj : String → List (String × ℚ)) (st : SpfState) (v : String) : Prop :=
  ∃ q : ℚ, alookup st.dist v = some ((q : ℚ) : WithTop ℚ) ∧
    ClosedAt adj st.dist v q ∧ ((q : ℚ) : WithTop ℚ) ≤ pqMinW st.pq

/-- Strengthening of `ClosedM` carried through one relaxation pass: the
settled distance is also bounded by the popped priority `p`. -/
def ClosedSP (adj : String → List (String × ℚ)) (p : ℚ) (st : SpfState) (v : String) :
    Prop :=
  ∃ q : ℚ, alookup st.dist v = some ((q : ℚ) : WithTop ℚ) ∧
    ClosedAt adj st.dist v q ∧ ((q : ℚ) : WithTop ℚ) ≤ pqMinW st.pq ∧ q ≤ p

/-- Loop invariant of the new (lazy-deletion) SPF calculator.  `K` is the
fixed key list of the distance map (the known nodes plus the source). -/
structure SpfInv (adj : String → List (String × ℚ)) (s : String) (K : List String)
    (st : SpfState) : Prop where
  hkeys : akeys st.dist = K
  hdist_s : alookup st.dist s = some ((0 : ℚ) : WithTop ℚ)
  hsound : ∀ (v : String) (q : ℚ), alookup st.dist v = some ((q : ℚ) : WithTop ℚ) →
    0 ≤ q ∧ IsWalk (adjRestrict adj K) s v q
  hnh : ∀ (v : String) (q : ℚ), v ≠ s → alookup st.dist v = some ((q : ℚ) : WithTop ℚ) →
    ∃ n c0 cw, alookup st.nextHop v = some n ∧ (n, c0) ∈ adj s ∧
      IsWalk (adjRestrict adj K) n v cw ∧ q = c0 + cw
  hentries : ∀ e ∈ st.pq, 0 ≤ e.2 ∧ (alookup st.dist e.1).isSome = true ∧
    distLookup st.dist e.1 ≤ ((e.2 : ℚ) : WithTop ℚ)
  hpcm : ∀ (v : String) (q : ℚ), alookup st.dist v = some ((q : ℚ) : WithTop ℚ) →
    (v, q) ∈ st.pq ∨
      (ClosedAt adj st.dist v q ∧ ((q : ℚ) : WithTop ℚ) ≤ pqMinW st.pq)

/-- Invariant threaded through the neighbor loop of one active dequeue of
node `u` at priority `p` (between relaxations, `u` itself is not yet
closed, so its pending-or-closed duty is suspended). -/
structure RelaxInv (adj : String → List (String × ℚ)) (s : String) (K : List String)
    (u : String) (p : ℚ) (st : SpfState) : Prop where
  hkeys : akeys st.dist = K
  hdist_s : alookup st.dist s = some ((0 : ℚ) : WithTop ℚ)
  hsound : ∀ (v : String) (q : ℚ), alookup st.dist v = some ((q : ℚ) : WithTop ℚ) →
    0 ≤ q ∧ IsWalk (adjRestrict adj K) s v q
  hnh : ∀ (v : String) (q : ℚ), v ≠ s → alookup st.dist v = some ((q : ℚ) : WithTop ℚ) →
    ∃ n c0 cw, alookup st.nextHop v = some n ∧ (n, c0) ∈ adj s ∧
      IsWalk (adjRestrict adj K) n v cw ∧ q = c0 + cw
  hentries : ∀ e ∈ st.pq, 0 ≤ e.2 ∧ (alookup st.dist e.1).isSome = true ∧
    distLookup st.dist e.1 ≤ ((e.2 : ℚ) : WithTop ℚ)
  hu : alookup st.dist u = some ((p : ℚ) : WithTop ℚ)
  hpcm' : ∀ (v : String) (q : ℚ), v ≠ u → alookup st.dist v = some ((q : ℚ) : WithTop ℚ) →
    (v, q) ∈ st.pq ∨
      (ClosedAt adj st.dist v q ∧ ((q : ℚ) : WithTop ℚ) ≤ pqMinW st.pq ∧ q ≤ p)
  hminp : ((p : ℚ) : WithTop ℚ) ≤ pqMinW st.pq

/-- Decidable check for `ClosedM`, used by the termination potential. -/
def closedMB (adj : String → List (String × ℚ)) (st : SpfState) (v : String) : Bool :=
  match alookup st.dist v with
  | some (some q) =>
    ((adj v).all fun wc => decide (distLookup st.dist wc.1 ≤ ((q + wc.2 : ℚ) : WithTop ℚ)))
      && decide (((q : ℚ) : WithTop ℚ) ≤ pqMinW st.pq)
  | _ => false

/-- Termination potential of the lazy-deletion loop: the queue length
plus, for every distance-map key not yet settled, one plus its degree.
Every loop iteration strictly decreases it. -/
def spfPhi (adj : String → List (String × ℚ)) (st : SpfState) : ℕ :=
  st.pq.length +
    (((akeys st.dist).filter fun v => ! closedMB adj st v).map
      fun v => 1 + (adj v).length).sum

/-- One step of the result-collection fold of `collectRoutes`, named so
the final-table lemmas can state equations about it. -/
def collectStep (s : String) (st : SpfState) (rt : RouteTable)
    (kv : String × WithTop ℚ) : RouteTable :=
  if kv.1 = s then rt
  else
    match kv.2 with
    | none => rt
    | some q =>
      rt.AddRoute
        { Destination := kv.1,
          NextHop := (alookup st.nextHop kv.1).getD "",
          Cost := q,
          Path := buildPath st.previous s kv.1 }

/-- The state in which the new calculator ends its dequeue loop, exactly
as `ComputeRoutes` runs it. -/
def spfFinalState (s : String) (t : Topology) : SpfState :=
  spfLoop t.adj s (spfFuel (spfInit (allIDsOf t) s).dist t.adj) (spfInit (allIDsOf t) s)

/-- Loop invariant of the older (visited-set) SPF calculator: fixed key
list, source at zero, soundness of stored distances, queue entries
dominating stored distances, every visited node closed and not above the
least pending priority, and every stored finite distance of an unvisited
node still pending in the queue. -/
structure OInv (adj : String → List (String × ℚ)) (s : String) (K : List String)
    (st : SpfStateOld) : Prop where
  hkeys : akeys st.dist = K
  hdist_s : alookup st.dist s = some ((0 : ℚ) : WithTop ℚ)
  hsound : ∀ (v : String) (q : ℚ), alookup st.dist v = some ((q : ℚ) : WithTop ℚ) →
    0 ≤ q ∧ IsWalk (adjRestrict adj K) s v q
  hentries : ∀ e ∈ st.pq, 0 ≤ e.2 ∧ (alookup st.dist e.1).isSome = true ∧
    distLookup st.dist e.1 ≤ ((e.2 : ℚ) : WithTop ℚ)
  hvis : ∀ v ∈ st.visited, ∃ q : ℚ, alookup st.dist v = some ((q : ℚ) : WithTop ℚ) ∧
    ClosedAt adj st.dist v q ∧ ((q : ℚ) : WithTop ℚ) ≤ pqMinW st.pq
  hpend : ∀ (v : String) (q : ℚ), alookup st.dist v = some ((q : ℚ) : WithTop ℚ) →
    ¬ v ∈ st.visited → (v, q) ∈ st.pq

/-- Invariant threaded through the neighbor loop of one active dequeue
of the older calculator (`u` was just marked visited at priority `p`). -/
structure RelaxInvOld (adj : String → List (String × ℚ)) (s : String) (K : List String)
    (u : String) (p : ℚ) (st : SpfStateOld) : Prop where
  hkeys : akeys st.dist = K
  hdist_s : alookup st.dist s = some ((0 : ℚ) : WithTop ℚ)
  hsound : ∀ (v : String) (q : ℚ), alookup st.dist v = some ((q : ℚ) : WithTop ℚ) →
    0 ≤ q ∧ IsWalk (adjRestrict adj K) s v q
  hentries : ∀ e ∈ st.pq, 0 ≤ e.2 ∧ (alookup st.dist e.1).isSome = true ∧
    distLookup st.dist e.1 ≤ ((e.2 : ℚ) : WithTop ℚ)
  hu : alookup st.dist u = some ((p : ℚ) : WithTop ℚ)
  hvisU : u ∈ st.visited
  hvis' : ∀ v ∈ st.visited, ¬ v = u →
    ∃ q : ℚ, alookup st.dist v = some ((q : ℚ) : WithTop ℚ) ∧
      ClosedAt adj st.dist v q ∧ ((q : ℚ) : WithTop ℚ) ≤ pqMinW st.pq ∧ q ≤ p
  hpend' : ∀ (v : String) (q : ℚ), alookup st.dist v = some ((q : ℚ) : WithTop ℚ) →
    ¬ v ∈ st.visited → (v, q) ∈ st.pq
  hminp : ((p : ℚ) : WithTop ℚ) ≤ pqMinW st.pq

/-- Termination potential of the older loop: queue length plus, for
every distance-map key not yet visited, one plus its degree. -/
def spfPhiOld (adj : String → List (String × ℚ)) (st : SpfStateOld) : ℕ :=
  st.pq.length +
    (((akeys st.dist).filter fun v => ! decide (v ∈ st.visited)).map
      fun v => 1 + (adj v).length).sum

/-- One step of the older calculator's result-collection fold. -/
def collectStepOld (s : String) (st : SpfStateOld) (rt : RouteTableOld)
    (kv : String × WithTop ℚ) : RouteTableOld :=
  if kv.1 = s then rt
  else
    match kv.2 with
    | none => rt
    | some q =>
      rt.AddRoute
        { Destination := kv.1,
          NextHop := (alookup st.nextHop kv.1).getD "",
          Cost := q }

/-- The state in which the older calculator ends its dequeue loop, as
`ComputeRoutesOld` runs it. -/
def spfFinalStateOld (s : String) (t : Topology) : SpfStateOld :=
  spfLoopOld t.adj s (spfFuel (spfInitOld (allIDsOf t) s).dist t.adj)
    (spfInitOld (allIDsOf t) s)

/-- Concrete `NodeInfo` used by the witness examples. -/
def niEx (s : String) : NodeInfo :=
  { ID := s, IP := "", Port := 0, RPCAddr := "", Status := NodeStatus.unknown }

/-- The empty topology. -/
def tEmpty : Topology := { nodes := [], edges := [] }

/-- The specification's triangle scenario: nodes A, B, C with edges
A-B at 1, B-C at 1 and A-C at 10. -/
def tEx : Topology :=
  ((((tEmpty.AddNode (niEx "A")).AddNode (niEx "B")).AddNode
    (niEx "C")).UpdateLink "A" "B" 1 |>.UpdateLink "B" "C" 1).UpdateLink "A" "C" 10

/-- Topology with an unknown relay: nodes A and B are known (they have
`NodeInfo` records) but X is not, while the edges A-X and X-B exist — a
state the sync path can produce, since link events may refer to nodes
not yet present locally. -/
def tUx : Topology :=
  (((tEmpty.AddNode (niEx "A")).AddNode (niEx "B")).UpdateLink "A" "X" 1).UpdateLink
    "X" "B" 1

/-- Topology where the cheap path from B to C relays through the unknown
node X: known nodes A, B, C; edges A-B at 10, B-C at 10, B-X at 1, X-C
at 1. -/
def tC2 : Topology :=
  (((((tEmpty.AddNode (niEx "A")).AddNode (niEx "B")).AddNode
    (niEx "C")).UpdateLink "A" "B" 10 |>.UpdateLink "B" "C" 10).UpdateLink "B" "X" 1
    |>.UpdateLink "X" "C" 1)

/-- Concrete sync event used by the witness examples. -/
def syncEx : TopologySyncEvent :=
  { NodeID := "B", Links := [{ From := "A", To := "B", Cost := 3 }] }

/-- Concrete packet with a pre-assigned id, for the witness examples. -/
def packetEx : Packet :=
  { Source := "nodeA", Destination := "nodeB", PacketId := "keep-me",
    Payload := [], NextHop := "", VisitedNodes := [] }

/-! Association-list lemmas. -/

theorem alookup_aset_self {β : Type} (m : List (String × β)) (k : String) (v : β) :
    alookup (aset m k v) k = some v := by
  induction m with
  | nil => simp [aset, alookup]
  | cons kv r ih =>
    obtain ⟨k', w⟩ := kv
    by_cases h : k' = k
    · simp [aset, h, alookup]
    · simp [aset, h, alookup, ih]

theorem alookup_aset_ne {β : Type} (m : List (String × β)) (k x : String) (v : β)
    (h : x ≠ k) : alookup (aset m k v) x = alookup m x := by
  induction m with
  | nil => simp [aset, alookup, Ne.symm h]
  | cons kv r ih =>
    obtain ⟨k', w⟩ := kv
    by_cases h1 : k' = k
    · subst h1
      simp [aset, alookup, Ne.symm h]
    · by_cases h2 : k' = x <;> simp [aset, alookup, h1, h2, h, ih]

theorem alookup_aerase_self {β : Type} (m : List (String × β)) (k : String) :
    alookup (aerase m k) k = none := by
  induction m with
  | nil => rfl
  | cons kv r ih =>
    obtain ⟨k', w⟩ := kv
    by_cases h : k' = k
    · simpa [aerase, h] using ih
    · simpa [aerase, alookup, h] using ih

theorem alookup_aerase_ne {β : Type} (m : List (String × β)) (k x : String)
    (h : x ≠ k) : alookup (aerase m k) x = alookup m x := by
  induction m with
  | nil => rfl
  | cons kv r ih =>
    obtain ⟨k', w⟩ := kv
    by_cases h1 : k' = k
    · subst h1
      simpa [aerase, alookup, Ne.symm h] using ih
    · by_cases h2 : k' = x
      · subst h2
        simp [aerase, alookup, h1, h]
      · simpa [aerase, alookup, h1, h2] using ih

theorem alookup_rowModify_self (e : List (String × List (String × ℚ))) (k : String)
    (f : List (String × ℚ) → List (String × ℚ)) :
    alookup (rowModify e k f) k = (alookup e k).map f := by
  induction e with
  | nil => rfl
  | cons kv r ih =>
    obtain ⟨k', w⟩ := kv
    simp only [rowModify]
    by_cases h : k' = k
    · subst h
      rw [if_pos rfl]
      simp [alookup]
    · rw [if_neg h]
      simpa [alookup, h] using ih

theorem alookup_rowModify_ne (e : List (String × List (String × ℚ))) (k x : String)
    (f : List (String × ℚ) → List (String × ℚ)) (h : x ≠ k) :
    alookup (rowModify e k f) x = alookup e x := by
  induction e with
  | nil => rfl
  | cons kv r ih =>
    obtain ⟨k', w⟩ := kv
    simp only [rowModify]
    by_cases h1 : k' = k
    · subst h1
      rw [if_pos rfl]
      simpa [alookup, Ne.symm h] using ih
    · rw [if_neg h1]
      by_cases h2 : k' = x
      · subst h2
        simp [alookup]
      · simpa [alookup, h2] using ih

theorem alookup_append {β : Type} (m₁ m₂ : List (String × β)) (x : String) :
    alookup (m₁ ++ m₂) x = (alookup m₁ x).or (alookup m₂ x) := by
  induction m₁ with
  | nil => simp [alookup]
  | cons kv r ih =>
    obtain ⟨k', w⟩ := kv
    by_cases h : k' = x <;> simp [alookup, h, ih]

theorem alookup_ensureRow_self (e : List (String × List (String × ℚ))) (k : String) :
    alookup (ensureRow e k) k = some ((alookup e k).getD []) := by
  unfold ensureRow
  cases h : alookup e k with
  | none => simp [h, alookup_append, alookup]
  | some r => simp [h]

theorem alookup_ensureRow_ne (e : List (String × List (String × ℚ))) (k x : String)
    (h : x ≠ k) : alookup (ensureRow e k) x = alookup e x := by
  unfold ensureRow
  cases hk : alookup e k with
  | none =>
    simp only [hk, Option.isSome_none, Bool.false_eq_true, if_false, alookup_append,
      alookup, if_neg (Ne.symm h)]
    cases alookup e x <;> rfl
  | some r => simp [hk]

theorem alookup_getD_bind {β : Type} (o : Option (List (String × β))) (y : String) :
    alookup (o.getD []) y = o.bind (fun r => alookup r y) := by
  cases o <;> simp [alookup]

/-! Topology operation lemmas: pointwise characterizations of `GetCost`
after each mutator. -/

theorem GetCost_AddNode (t : Topology) (n : NodeInfo) (x y : String) :
    (t.AddNode n).GetCost x y = t.GetCost x y := by
  unfold Topology.AddNode Topology.GetCost
  by_cases h : x = n.ID
  · subst h
    simp [alookup_ensureRow_self, alookup_getD_bind]
  · simp [alookup_ensureRow_ne _ _ _ h]

theorem GetCost_UpdateLink (t : Topology) (a b : String) (c : ℚ) (x y : String) :
    (t.UpdateLink a b c).GetCost x y =
      if (x = a ∧ y = b) ∨ (x = b ∧ y = a) then some c else t.GetCost x y := by
  unfold Topology.UpdateLink Topology.GetCost
  dsimp only
  by_cases hxb : x = b
  · subst hxb
    rw [alookup_rowModify_self]
    by_cases hxa : x = a
    · subst hxa
      rw [alookup_rowModify_self, alookup_ensureRow_self, alookup_ensureRow_self]
      simp only [Option.getD_some, Option.map_some', Option.some_bind]
      by_cases hy : y = x
      · subst hy
        simp [alookup_aset_self]
      · rw [alookup_aset_ne _ _ _ _ hy, alookup_aset_ne _ _ _ _ hy,
          alookup_getD_bind]
        simp [hy]
    · rw [alookup_rowModify_ne _ _ _ _ hxa, alookup_ensureRow_self,
        alookup_ensureRow_ne _ _ _ hxa]
      simp only [Option.map_some', Option.some_bind]
      by_cases hy : y = a
      · subst hy
        simp [alookup_aset_self, hxa]
      · rw [alookup_aset_ne _ _ _ _ hy, alookup_getD_bind]
        simp [hxa, hy]
  · rw [alookup_rowModify_ne _ _ _ _ hxb]
    by_cases hxa : x = a
    · subst hxa
      rw [alookup_rowModify_self, alookup_ensureRow_ne _ _ _ hxb,
        alookup_ensureRow_self]
      simp only [Option.map_some', Option.some_bind]
      by_cases hy : y = b
      · subst hy
        simp [alookup_aset_self]
      · rw [alookup_aset_ne _ _ _ _ hy, alookup_getD_bind]
        simp [hxb, hy]
    · rw [alookup_rowModify_ne _ _ _ _ hxa, alookup_ensureRow_ne _ _ _ hxb,
        alookup_ensureRow_ne _ _ _ hxa]
      simp [hxa, hxb]

theorem GetCost_RemoveLink (t : Topology) (a b : String) (x y : String) :
    (t.RemoveLink a b).GetCost x y =
      if (x = a ∧ y = b) ∨ (x = b ∧ y = a) then none else t.GetCost x y := by
  unfold Topology.RemoveLink Topology.GetCost
  dsimp only
  by_cases hxb : x = b
  · subst hxb
    rw [alookup_rowModify_self]
    by_cases hxa : x = a
    · subst hxa
      rw [alookup_rowModify_self]
      cases hr : alookup t.edges x with
      | none => simp [hr]
      | some row =>
        simp only [Option.map_some', Option.some_bind]
        by_cases hy : y = x
        · subst hy
          simp [alookup_aerase_self]
        · rw [alookup_aerase_ne _ _ _ hy, alookup_aerase_ne _ _ _ hy]
          simp [hy]
    · rw [alookup_rowModify_ne _ _ _ _ hxa]
      cases hr : alookup t.edges x with
      | none => simp [hr]
      | some row =>
        simp only [Option.map_some', Option.some_bind]
        by_cases hy : y = a
        · subst hy
          simp [alookup_aerase_self, hxa]
        · rw [alookup_aerase_ne _ _ _ hy]
          simp [hxa, hy]
  · rw [alookup_rowModify_ne _ _ _ _ hxb]
    by_cases hxa : x = a
    · subst hxa
      rw [alookup_rowModify_self]
      cases hr : alookup t.edges x with
      | none => simp [hr]
      | some row =>
        simp only [Option.map_some', Option.some_bind]
        by_cases hy : y = b
        · subst hy
          simp [alookup_aerase_self]
        · rw [alookup_aerase_ne _ _ _ hy]
          simp [hxb, hy]
    · rw [alookup_rowModify_ne _ _ _ _ hxa]
      simp [hxa, hxb]


theorem alookup_isSome_iff_mem {β : Type} (m : List (String × β)) (x : String) :
    (alookup m x).isSome = true ↔ x ∈ m.map Prod.fst := by
  induction m with
  | nil => simp [alookup]
  | cons kv r ih =>
    obtain ⟨k', w⟩ := kv
    by_cases h : k' = x
    · subst h
      simp [alookup]
    · simp [alookup, h, ih, Ne.symm h]

theorem aerase_idem {β : Type} (r : List (String × β)) (n : String) :
    aerase (aerase r n) n = aerase r n := by
  induction r with
  | nil => rfl
  | cons kv rest ih =>
    obtain ⟨k', w⟩ := kv
    by_cases h : k' = n <;> simp [aerase, h, ih]

theorem alookup_foldl_eraseRow (L : List (String × ℚ))
    (e : List (String × List (String × ℚ))) (n x : String) :
    alookup (L.foldl (fun acc nb => rowModify acc nb.1 (fun r => aerase r n)) e) x =
      if x ∈ L.map Prod.fst then (alookup e x).map (fun r => aerase r n)
      else alookup e x := by
  induction L generalizing e with
  | nil => simp
  | cons nb L ih =>
    obtain ⟨k', c⟩ := nb
    rw [List.foldl_cons, ih]
    by_cases hk : x = k'
    · subst hk
      rw [alookup_rowModify_self]
      by_cases hx : x ∈ L.map Prod.fst
      · rw [if_pos hx, if_pos (by simp)]
        cases alookup e x with
        | none => rfl
        | some r => simp [aerase_idem]
      · rw [if_neg hx, if_pos (by simp)]
    · rw [alookup_rowModify_ne _ _ _ _ hk]
      by_cases hx : x ∈ L.map Prod.fst
      · rw [if_pos hx, if_pos (by simp [hx])]
      · rw [if_neg hx, if_neg (by simp [hx, hk])]

theorem GetCost_RemoveNode (t : Topology) (n x y : String) :
    (t.RemoveNode n).GetCost x y =
      if x = n then none
      else if y = n ∧ (t.GetCost n x).isSome then none
      else t.GetCost x y := by
  unfold Topology.RemoveNode Topology.GetCost
  dsimp only
  by_cases hx : x = n
  · subst hx
    simp [alookup_aerase_self]
  · rw [if_neg hx, alookup_aerase_ne _ _ _ hx, alookup_foldl_eraseRow]
    have hiff : ((alookup t.edges n).bind fun r => alookup r x).isSome = true ↔
        x ∈ ((alookup t.edges n).getD []).map Prod.fst := by
      rw [← alookup_getD_bind, alookup_isSome_iff_mem]
    by_cases hmem : x ∈ ((alookup t.edges n).getD []).map Prod.fst
    · rw [if_pos hmem]
      cases hr : alookup t.edges x with
      | none => simp
      | some row =>
        simp only [Option.map_some', Option.some_bind]
        by_cases hy : y = n
        · subst hy
          rw [alookup_aerase_self, if_pos ⟨rfl, hiff.2 hmem⟩]
        · rw [alookup_aerase_ne _ _ _ hy, if_neg (fun hc => hy hc.1)]
    · rw [if_neg hmem, if_neg (fun hc => hmem (hiff.1 hc.2))]

theorem Symm_AddNode (t : Topology) (n : NodeInfo) (h : t.Symm) : (t.AddNode n).Symm := by
  intro x y
  rw [GetCost_AddNode, GetCost_AddNode, h]

theorem Symm_UpdateLink (t : Topology) (a b : String) (c : ℚ) (h : t.Symm) :
    (t.UpdateLink a b c).Symm := by
  intro x y
  rw [GetCost_UpdateLink, GetCost_UpdateLink]
  by_cases hc : (x = a ∧ y = b) ∨ (x = b ∧ y = a)
  · rw [if_pos hc, if_pos (by tauto)]
  · rw [if_neg hc, if_neg (by tauto), h]

theorem Symm_RemoveLink (t : Topology) (a b : String) (h : t.Symm) :
    (t.RemoveLink a b).Symm := by
  intro x y
  rw [GetCost_RemoveLink, GetCost_RemoveLink]
  by_cases hc : (x = a ∧ y = b) ∨ (x = b ∧ y = a)
  · rw [if_pos hc, if_pos (by tauto)]
  · rw [if_neg hc, if_neg (by tauto), h]

theorem Symm_RemoveNode (t : Topology) (n : String) (h : t.Symm) :
    (t.RemoveNode n).Symm := by
  intro x y
  rw [GetCost_RemoveNode, GetCost_RemoveNode]
  by_cases hx : x = n
  · subst hx
    rw [if_pos rfl]
    by_cases hy : y = x
    · rw [if_pos hy]
    · rw [if_neg hy]
      by_cases hs : (t.GetCost x y).isSome = true
      · rw [if_pos ⟨rfl, hs⟩]
      · rw [if_neg (fun hc => hs hc.2), h]
        cases hg : t.GetCost x y
        · rfl
        · exact absurd (by simp [hg]) hs
  · rw [if_neg hx]
    by_cases hy : y = n
    · subst hy
      rw [if_pos rfl]
      by_cases hs : (t.GetCost y x).isSome = true
      · rw [if_pos ⟨rfl, hs⟩]
      · rw [if_neg (fun hc => hs hc.2), h]
        cases hg : t.GetCost y x
        · rfl
        · exact absurd (by simp [hg]) hs
    · rw [if_neg hy, if_neg (fun hc : y = n ∧ _ => hy hc.1),
        if_neg (fun hc : x = n ∧ _ => hx hc.1), h]

/-- C4: the adjacency stays symmetric under every operation: after
`update_link(a,b,c)` both `get_cost(a,b)` and `get_cost(b,a)` return `c`
as present; after `remove_node(a)` (on a symmetric topology, the
documented invariant every reachable topology satisfies) every incident
edge is swept in both directions, so `get_cost(x,a)` (and `get_cost(a,x)`)
is absent for every `x`; and all four mutators preserve symmetry. -/
theorem claim_C4 (t : Topology) (a b x : String) (c : ℚ) (hs : t.Symm) :
    ((t.UpdateLink a b c).GetCost a b = some c ∧
      (t.UpdateLink a b c).GetCost b a = some c) ∧
    ((t.RemoveNode a).GetCost x a = none ∧ (t.RemoveNode a).GetCost a x = none) ∧
    ((t.UpdateLink a b c).Symm ∧ (t.RemoveNode a).Symm ∧ (t.RemoveLink a b).Symm ∧
      ∀ n : NodeInfo, (t.AddNode n).Symm) := by
  refine ⟨⟨?_, ?_⟩, ⟨?_, ?_⟩, Symm_UpdateLink t a b c hs, Symm_RemoveNode t a hs,
    Symm_RemoveLink t a b hs, fun n => Symm_AddNode t n hs⟩
  · rw [GetCost_UpdateLink, if_pos (Or.inl ⟨rfl, rfl⟩)]
  · rw [GetCost_UpdateLink, if_pos (Or.inr ⟨rfl, rfl⟩)]
  · rw [GetCost_RemoveNode]
    by_cases hx : x = a
    · rw [if_pos hx]
    · rw [if_neg hx]
      by_cases hsm : (t.GetCost a x).isSome = true
      · rw [if_pos ⟨rfl, hsm⟩]
      · rw [if_neg (fun hc => hsm hc.2), hs]
        cases hg : t.GetCost a x
        · rfl
        · exact absurd (by simp [hg]) hsm
  · rw [GetCost_RemoveNode, if_pos rfl]

/-- Witness for C4 at the empty topology with concrete nodes and cost. -/
theorem claim_C4_witness :
    (((tEmpty.UpdateLink "A" "B" 1).GetCost "A" "B" = some 1 ∧
      (tEmpty.UpdateLink "A" "B" 1).GetCost "B" "A" = some 1) ∧
    ((tEmpty.RemoveNode "A").GetCost "C" "A" = none ∧
      (tEmpty.RemoveNode "A").GetCost "A" "C" = none) ∧
    ((tEmpty.UpdateLink "A" "B" 1).Symm ∧ (tEmpty.RemoveNode "A").Symm ∧
      (tEmpty.RemoveLink "A" "B").Symm ∧
      ∀ n : NodeInfo, (tEmpty.AddNode n).Symm)) :=
  claim_C4 tEmpty "A" "B" "C" 1 (fun _ _ => rfl)



/-! Topology-sync merge lemmas. -/

theorem syncStep_fst (t : Topology) (ch : Bool) (l : TopologyLinkEntry) :
    (syncStep t ch l).1 = syncStepT t l := by
  unfold syncStepT syncStep
  cases t.GetCost l.From l.To <;> dsimp only <;> split_ifs <;> rfl

theorem syncStep_snd (t : Topology) (ch : Bool) (l : TopologyLinkEntry) :
    (syncStep t ch l).2 = (adoptCondB t l || ch) := by
  unfold syncStep adoptCondB
  cases hg : t.GetCost l.From l.To with
  | none => rfl
  | some ex =>
    dsimp only
    by_cases hne : ex ≠ l.Cost
    · rw [if_pos hne]
      by_cases hlt : l.Cost < ex
      · simp [hlt]
      · simp [hlt]
    · rw [if_neg hne]
      rw [not_not] at hne
      have : ¬l.Cost < ex := by rw [hne]; exact lt_irrefl _
      simp [this]

theorem syncFold_fst (ls : List TopologyLinkEntry) (t : Topology) (ch : Bool) :
    (ls.foldl (fun st link => syncStep st.1 st.2 link) (t, ch)).1 =
      ls.foldl syncStepT t := by
  induction ls generalizing t ch with
  | nil => rfl
  | cons l ls ih =>
    rw [List.foldl_cons, List.foldl_cons]
    have : syncStep t ch l = ((syncStep t ch l).1, (syncStep t ch l).2) := rfl
    rw [this, ih, syncStep_fst]

theorem syncFold_snd (ls : List TopologyLinkEntry) (t : Topology) (ch : Bool) :
    (ls.foldl (fun st link => syncStep st.1 st.2 link) (t, ch)).2 =
      (ch || adoptsAnyB t ls) := by
  induction ls generalizing t ch with
  | nil => simp [adoptsAnyB]
  | cons l ls ih =>
    rw [List.foldl_cons]
    have h1 : syncStep t ch l = ((syncStep t ch l).1, (syncStep t ch l).2) := rfl
    rw [h1, ih, syncStep_fst, syncStep_snd, adoptsAnyB]
    cases adoptCondB t l <;> cases ch <;> simp

/-- C3: a topology-sync event from the node itself is dropped whole;
otherwise each link is adopted (written through `UpdateLink`) exactly
when it is locally absent or strictly cheaper (`adoptCondB`), the local
value is kept when the local cost is equal or lower, and the
change-notification fires (second component `true`) exactly when at
least one link of the event was adopted. -/
theorem claim_C3 (selfID : String) (e : TopologySyncEvent) (t : Topology) :
    (e.NodeID = selfID → handleTopologySync selfID e t = (t, false)) ∧
    (∀ (t' : Topology) (ch : Bool) (l : TopologyLinkEntry),
      (adoptCondB t' l = true →
        (syncStep t' ch l).1 = t'.UpdateLink l.From l.To l.Cost ∧
          (syncStep t' ch l).2 = true) ∧
      (∀ ex, t'.GetCost l.From l.To = some ex → ex ≤ l.Cost →
        syncStep t' ch l = (t', ch))) ∧
    (e.NodeID ≠ selfID →
      (handleTopologySync selfID e t).2 = adoptsAnyB t e.Links) := by
  refine ⟨fun h => by simp [handleTopologySync, h], fun t' ch l => ⟨?_, ?_⟩, fun h => ?_⟩
  · intro had
    unfold adoptCondB at had
    unfold syncStep
    cases hg : t'.GetCost l.From l.To with
    | none => exact ⟨rfl, rfl⟩
    | some ex =>
      rw [hg] at had
      have hlt : l.Cost < ex := by simpa using had
      have hne : ex ≠ l.Cost := ne_of_gt hlt
      dsimp only
      rw [if_pos hne, if_pos hlt]
      exact ⟨rfl, rfl⟩
  · intro ex hg hle
    unfold syncStep
    rw [hg]
    dsimp only
    by_cases hne : ex ≠ l.Cost
    · rw [if_pos hne, if_neg (not_lt.mpr hle)]
    · rw [if_neg hne]
  · unfold handleTopologySync
    rw [if_neg h, syncFold_snd]
    simp

/-- Witness for C3 at concrete inputs: the self-originated event is
dropped, an absent link is adopted, an equal-or-higher link is kept, and
the fired flag equals the adopted-anything predicate. -/
theorem claim_C3_witness :
    handleTopologySync "B" syncEx tEmpty = (tEmpty, false) ∧
    ((syncStep tEmpty false { From := "A", To := "B", Cost := 3 }).1 =
        tEmpty.UpdateLink "A" "B" 3 ∧
      (syncStep tEmpty false { From := "A", To := "B", Cost := 3 }).2 = true) ∧
    syncStep (tEmpty.UpdateLink "A" "B" 3) true { From := "A", To := "B", Cost := 5 } =
      (tEmpty.UpdateLink "A" "B" 3, true) ∧
    (handleTopologySync "X" syncEx tEmpty).2 = adoptsAnyB tEmpty syncEx.Links :=
  ⟨(claim_C3 "B" syncEx tEmpty).1 rfl,
    ((claim_C3 "B" syncEx tEmpty).2.1 tEmpty false { From := "A", To := "B", Cost := 3 }).1
      (by decide),
    ((claim_C3 "B" syncEx tEmpty).2.1 (tEmpty.UpdateLink "A" "B" 3) true
        { From := "A", To := "B", Cost := 5 }).2 3 (by decide) (by decide),
    (claim_C3 "X" syncEx tEmpty).2.2 (by decide)⟩

/-- C7 counterexample: a gossip link-update event carrying a negative
cost is not rejected: it mutates the graph, the negative cost landing in
the adjacency (the claim asserts it would be rejected before mutation). -/
theorem claim_C7_counterexample :
    (handleLinkUpdate { From := "a", To := "b", Cost := -1, Op := "add" } tEmpty).GetCost
        "a" "b" = some (-1) ∧
    tEmpty.GetCost "a" "b" = none := by
  exact ⟨by decide, rfl⟩

/-- C7 amended: the gossip link-update path performs no cost validation
at all — an add or update event's cost, negative included, is written
into the graph unchanged; on the AddLink control path a non-positive
requested cost is never written directly (auto-probe or `cost ≤ 0`
routes through the probe result instead), while a positive requested
cost is written as supplied, with no upper-bound or finiteness check. -/
theorem claim_C7_amended :
    (∀ (from_ to_ : String) (c : ℚ) (t : Topology) (op : String),
      op = "add" ∨ op = "update" →
        (handleLinkUpdate { From := from_, To := to_, Cost := c, Op := op } t).GetCost
          from_ to_ = some c) ∧
    (∀ reqCost probed : ℚ,
      (reqCost ≤ 0 → addLinkFinalCost reqCost false (some probed) = some probed) ∧
      (0 < reqCost → addLinkFinalCost reqCost false (some probed) = some reqCost) ∧
      addLinkFinalCost reqCost true (some probed) = some probed) := by
  constructor
  · intro from_ to_ c t op hop
    unfold handleLinkUpdate
    rw [if_pos hop, GetCost_UpdateLink, if_pos (Or.inl ⟨rfl, rfl⟩)]
  · intro reqCost probed
    refine ⟨fun hle => ?_, fun hlt => ?_, ?_⟩
    · simp [addLinkFinalCost, hle]
    · simp [addLinkFinalCost, not_le.mpr hlt]
    · simp [addLinkFinalCost]

/-- Witness for C7's amended claim at concrete costs. -/
theorem claim_C7_witness :
    (handleLinkUpdate { From := "a", To := "b", Cost := -5, Op := "update" } tEmpty).GetCost
        "a" "b" = some (-5) ∧
    addLinkFinalCost (-3) false (some 7) = some 7 ∧
    addLinkFinalCost 4 false (some 7) = some 4 ∧
    addLinkFinalCost 4 true (some 7) = some 7 :=
  ⟨claim_C7_amended.1 "a" "b" (-5) tEmpty "update" (Or.inr rfl),
    (claim_C7_amended.2 (-3) 7).1 (by norm_num),
    (claim_C7_amended.2 4 7).2.1 (by norm_num),
    (claim_C7_amended.2 4 7).2.2⟩

/-- C6 counterexample: the control-plane id generator puts the timestamp
before the node id, so the minted id is not of the claimed
`pkt-{node}-{nanos}` shape. -/
theorem claim_C6_counterexample :
    (controlAssignId { packetEx with PacketId := "" } "nodeA" 12345).PacketId =
      "pkt-12345-nodeA" ∧
    "pkt-12345-nodeA" ≠ "pkt-" ++ "nodeA" ++ "-" ++ toString (12345 : Int) := by
  exact ⟨rfl, by decide⟩

/-- C6 amended: the Forward manager's send mints ids of the shape
`pkt-{node-id}-{nanos}`, while the control-plane SendPacket path mints
`pkt-{nanos}-{node-id}` (the two components in the opposite order, with
the control node's id); a packet arriving with a non-empty id keeps it
unchanged. -/
theorem claim_C6_amended :
    (∀ (nodeID destination : String) (payload : List UInt8) (nanos : Int),
      (fmSendPacketMk nodeID destination payload nanos).PacketId =
        "pkt-" ++ nodeID ++ "-" ++ toString nanos) ∧
    (∀ (p : Packet) (nodeID : String) (nanos : Int), p.PacketId = "" →
      (controlAssignId p nodeID nanos).PacketId =
        "pkt-" ++ toString nanos ++ "-" ++ nodeID) ∧
    (∀ (p : Packet) (nodeID : String) (nanos : Int), p.PacketId ≠ "" →
      controlAssignId p nodeID nanos = p) := by
  refine ⟨fun _ _ _ _ => rfl, fun p nodeID nanos h => ?_, fun p nodeID nanos h => ?_⟩
  · simp [controlAssignId, h, controlPacketId]
  · simp [controlAssignId, h]

/-- Witness for C6's amended claim at concrete inputs. -/
theorem claim_C6_witness :
    (fmSendPacketMk "nodeA" "nodeB" [] 7).PacketId =
      "pkt-" ++ "nodeA" ++ "-" ++ toString (7 : Int) ∧
    (controlAssignId { packetEx with PacketId := "" } "nodeC" 9).PacketId =
      "pkt-" ++ toString (9 : Int) ++ "-" ++ "nodeC" ∧
    controlAssignId packetEx "nodeC" 9 = packetEx :=
  ⟨claim_C6_amended.1 "nodeA" "nodeB" [] 7,
    claim_C6_amended.2.1 { packetEx with PacketId := "" } "nodeC" 9 rfl,
    claim_C6_amended.2.2 packetEx "nodeC" 9 (by decide)⟩

/-- C9: with `self_debug` set the probe always succeeds, and whatever the
random draws (`rand.Intn(50)` below 50, `rand.Float64()` in `[0,1)`), the
synthetic RTT lies in `[1,50]` and the synthetic cost in `[1,20]`. -/
theorem claim_C9 (rInt : ℕ) (rFloat : ℚ) (h1 : rInt < 50) (h2 : 0 ≤ rFloat)
    (h3 : rFloat < 1) :
    ∃ resp, ProbeLinkQuality true rInt rFloat = some resp ∧ resp.Success = true ∧
      1 ≤ resp.RttMs ∧ resp.RttMs ≤ 50 ∧ 1 ≤ resp.Cost ∧ resp.Cost ≤ 20 := by
  refine ⟨_, rfl, rfl, ?_, ?_, ?_, ?_⟩
  · simp
  · simp only [ProbeLinkQuality]
    omega
  · have : (0 : ℚ) ≤ rFloat * 19 := by positivity
    simp only [ProbeLinkQuality]
    linarith
  · have : rFloat * 19 ≤ 19 := by nlinarith
    simp only [ProbeLinkQuality]
    linarith

/-- Witness for C9 at concrete random draws. -/
theorem claim_C9_witness :
    ∃ resp, ProbeLinkQuality true 0 (1 / 2) = some resp ∧ resp.Success = true ∧
      1 ≤ resp.RttMs ∧ resp.RttMs ≤ 50 ∧ 1 ≤ resp.Cost ∧ resp.Cost ≤ 20 :=
  claim_C9 0 (1 / 2) (by norm_num) (by norm_num) (by norm_num)



/-! Idempotence machinery for the sync merge (C8). -/

theorem Symm_syncStepT (t : Topology) (l : TopologyLinkEntry) (hs : t.Symm) :
    (syncStepT t l).Symm := by
  unfold syncStepT syncStep
  cases t.GetCost l.From l.To with
  | none => exact Symm_UpdateLink t l.From l.To l.Cost hs
  | some ex =>
    dsimp only
    split_ifs with h1 h2
    · exact Symm_UpdateLink t l.From l.To l.Cost hs
    · exact hs
    · exact hs

theorem syncStepT_mono (t : Topology) (l : TopologyLinkEntry) (hs : t.Symm)
    (x y : String) (c : ℚ) (hg : t.GetCost x y = some c) :
    ∃ c', c' ≤ c ∧ (syncStepT t l).GetCost x y = some c' := by
  unfold syncStepT syncStep
  cases hfrom : t.GetCost l.From l.To with
  | none =>
    dsimp only
    rw [GetCost_UpdateLink]
    by_cases hc : (x = l.From ∧ y = l.To) ∨ (x = l.To ∧ y = l.From)
    · exfalso
      rcases hc with ⟨hx, hy⟩ | ⟨hx, hy⟩
      · rw [hx, hy, hfrom] at hg
        exact Option.noConfusion hg
      · rw [hx, hy, hs l.To l.From, hfrom] at hg
        exact Option.noConfusion hg
    · rw [if_neg hc]
      exact ⟨c, le_refl c, hg⟩
  | some ex =>
    dsimp only
    split_ifs with h1 h2
    · rw [GetCost_UpdateLink]
      by_cases hc : (x = l.From ∧ y = l.To) ∨ (x = l.To ∧ y = l.From)
      · have hcex : c = ex := by
          rcases hc with ⟨hx, hy⟩ | ⟨hx, hy⟩
          · rw [hx, hy, hfrom] at hg
            exact (Option.some.inj hg).symm
          · rw [hx, hy, hs l.To l.From, hfrom] at hg
            exact (Option.some.inj hg).symm
        rw [if_pos hc]
        exact ⟨l.Cost, by rw [hcex]; exact le_of_lt h2, rfl⟩
      · rw [if_neg hc]
        exact ⟨c, le_refl c, hg⟩
    · exact ⟨c, le_refl c, hg⟩
    · exact ⟨c, le_refl c, hg⟩

theorem Symm_syncFoldT (ls : List TopologyLinkEntry) (t : Topology) (hs : t.Symm) :
    (ls.foldl syncStepT t).Symm := by
  induction ls generalizing t with
  | nil => exact hs
  | cons l ls ih =>
    rw [List.foldl_cons]
    exact ih _ (Symm_syncStepT t l hs)

theorem syncFoldT_mono (ls : List TopologyLinkEntry) (t : Topology) (hs : t.Symm)
    (x y : String) (c : ℚ) (hg : t.GetCost x y = some c) :
    ∃ c', c' ≤ c ∧ (ls.foldl syncStepT t).GetCost x y = some c' := by
  induction ls generalizing t c with
  | nil => exact ⟨c, le_refl c, hg⟩
  | cons l ls ih =>
    rw [List.foldl_cons]
    obtain ⟨c1, hc1, hg1⟩ := syncStepT_mono t l hs x y c hg
    obtain ⟨c', hc', hg'⟩ := ih (syncStepT t l) (Symm_syncStepT t l hs) c1 hg1
    exact ⟨c', le_trans hc' hc1, hg'⟩

theorem syncStepT_cell_self (t : Topology) (l : TopologyLinkEntry) :
    ∃ c, c ≤ l.Cost ∧ (syncStepT t l).GetCost l.From l.To = some c := by
  unfold syncStepT syncStep
  cases hfrom : t.GetCost l.From l.To with
  | none =>
    dsimp only
    rw [GetCost_UpdateLink, if_pos (Or.inl ⟨rfl, rfl⟩)]
    exact ⟨l.Cost, le_refl _, rfl⟩
  | some ex =>
    dsimp only
    split_ifs with h1 h2
    · rw [GetCost_UpdateLink, if_pos (Or.inl ⟨rfl, rfl⟩)]
      exact ⟨l.Cost, le_refl _, rfl⟩
    · exact ⟨ex, not_lt.mp h2, hfrom⟩
    · rw [not_not] at h1
      exact ⟨ex, le_of_eq h1, hfrom⟩

theorem syncFoldT_cell (ls : List TopologyLinkEntry) (t : Topology) (hs : t.Symm)
    (l : TopologyLinkEntry) (hl : l ∈ ls) :
    ∃ c, c ≤ l.Cost ∧ (ls.foldl syncStepT t).GetCost l.From l.To = some c := by
  induction ls generalizing t with
  | nil => cases hl
  | cons hd tl ih =>
    rw [List.foldl_cons]
    rcases List.mem_cons.mp hl with rfl | hmem
    · obtain ⟨c0, hc0, hg0⟩ := syncStepT_cell_self t l
      obtain ⟨c', hc', hg'⟩ :=
        syncFoldT_mono tl (syncStepT t l) (Symm_syncStepT t l hs) l.From l.To c0 hg0
      exact ⟨c', le_trans hc' hc0, hg'⟩
    · exact ih (syncStepT t hd) (Symm_syncStepT t hd hs) hmem

theorem syncFold_noop (ls : List TopologyLinkEntry) (t : Topology)
    (h : ∀ l ∈ ls, ∃ c, c ≤ l.Cost ∧ t.GetCost l.From l.To = some c) :
    ls.foldl (fun st link => syncStep st.1 st.2 link) (t, false) = (t, false) := by
  induction ls with
  | nil => rfl
  | cons l ls ih =>
    rw [List.foldl_cons]
    obtain ⟨c, hc, hg⟩ := h l (List.mem_cons_self l ls)
    have hstep : syncStep t false l = (t, false) := by
      unfold syncStep
      rw [hg]
      dsimp only
      by_cases hne : c ≠ l.Cost
      · rw [if_pos hne, if_neg (not_lt.mpr hc)]
      · rw [if_neg hne]
    rw [hstep]
    exact ih (fun l' hl' => h l' (List.mem_cons_of_mem l hl'))

/-- C8: processing the same topology-sync event a second time, right
after a first processing of it, leaves the topology unchanged and does
not fire the change notification (for any event from another node and
any starting topology satisfying the adjacency-symmetry invariant, which
every reachable topology does). -/
theorem claim_C8 (selfID : String) (e : TopologySyncEvent) (t : Topology)
    (hne : e.NodeID ≠ selfID) (hs : t.Symm) :
    handleTopologySync selfID e ((handleTopologySync selfID e t).1) =
      ((handleTopologySync selfID e t).1, false) := by
  unfold handleTopologySync
  rw [if_neg hne, if_neg hne, syncFold_fst]
  exact syncFold_noop e.Links (e.Links.foldl syncStepT t)
    (fun l hl => syncFoldT_cell e.Links t hs l hl)

/-- Witness for C8 at a concrete event and the empty topology. -/
theorem claim_C8_witness :
    handleTopologySync "X" syncEx ((handleTopologySync "X" syncEx tEmpty).1) =
      ((handleTopologySync "X" syncEx tEmpty).1, false) :=
  claim_C8 "X" syncEx tEmpty (by decide) (fun _ _ => rfl)



/-! Priority-queue lemmas. -/

theorem popMin_eq_none_iff (pq : List (String × ℚ)) : popMin pq = none ↔ pq = [] := by
  cases pq with
  | nil => simp [popMin]
  | cons e rest =>
    simp only [popMin]
    cases popMin rest with
    | none => simp
    | some m =>
      obtain ⟨m, rest'⟩ := m
      by_cases h : e.2 ≤ m.2 <;> simp [h]

theorem popMin_spec (pq : List (String × ℚ)) (e : String × ℚ) (rest : List (String × ℚ))
    (h : popMin pq = some (e, rest)) :
    e ∈ pq ∧ (∀ x ∈ pq, e.2 ≤ x.2) ∧ pq.Perm (e :: rest) := by
  induction pq generalizing e rest with
  | nil => cases h
  | cons hd tl ih =>
    rw [popMin] at h
    cases hm : popMin tl with
    | none =>
      rw [hm] at h
      obtain ⟨rfl, rfl⟩ : hd = e ∧ [] = rest := by
        constructor <;> [exact congrArg Prod.fst (Option.some.inj h);
          exact congrArg Prod.snd (Option.some.inj h)]
      have htl : tl = [] := (popMin_eq_none_iff tl).mp hm
      subst htl
      exact ⟨List.mem_singleton_self _, by simp, List.Perm.refl _⟩
    | some m =>
      obtain ⟨m, rest'⟩ := m
      simp only [hm] at h
      obtain ⟨hmem, hmin, hperm⟩ := ih m rest' hm
      by_cases hle : hd.2 ≤ m.2
      · rw [if_pos hle] at h
        obtain ⟨rfl, rfl⟩ : hd = e ∧ tl = rest := by
          constructor <;> [exact congrArg Prod.fst (Option.some.inj h);
            exact congrArg Prod.snd (Option.some.inj h)]
        refine ⟨List.mem_cons_self _ _, ?_, List.Perm.refl _⟩
        intro x hx
        rcases List.mem_cons.mp hx with rfl | hx
        · exact le_refl _
        · exact le_trans hle (hmin x hx)
      · rw [if_neg hle] at h
        obtain ⟨rfl, rfl⟩ : m = e ∧ hd :: rest' = rest := by
          constructor <;> [exact congrArg Prod.fst (Option.some.inj h);
            exact congrArg Prod.snd (Option.some.inj h)]
        refine ⟨List.mem_cons_of_mem _ hmem, ?_, ?_⟩
        · intro x hx
          rcases List.mem_cons.mp hx with rfl | hx
          · exact le_of_lt (lt_of_not_le hle)
          · exact hmin x hx
        · exact List.Perm.trans (List.Perm.cons hd hperm) (List.Perm.swap _ _ _)

theorem popMin_rest_mem (pq : List (String × ℚ)) (e : String × ℚ)
    (rest : List (String × ℚ)) (h : popMin pq = some (e, rest)) :
    ∀ x ∈ rest, x ∈ pq := by
  intro x hx
  exact ((popMin_spec pq e rest h).2.2.mem_iff).mpr (List.mem_cons_of_mem _ hx)

theorem popMin_mem_rest_of_ne (pq : List (String × ℚ)) (e : String × ℚ)
    (rest : List (String × ℚ)) (h : popMin pq = some (e, rest)) (x : String × ℚ)
    (hx : x ∈ pq) (hne : x ≠ e) : x ∈ rest := by
  have := ((popMin_spec pq e rest h).2.2.mem_iff).mp hx
  rcases List.mem_cons.mp this with rfl | hx'
  · exact absurd rfl hne
  · exact hx'

theorem popMin_length (pq : List (String × ℚ)) (e : String × ℚ)
    (rest : List (String × ℚ)) (h : popMin pq = some (e, rest)) :
    pq.length = rest.length + 1 := by
  have := (popMin_spec pq e rest h).2.2.length_eq
  simpa using this

theorem pqMinW_cons (e : String × ℚ) (tl : List (String × ℚ)) :
    pqMinW (e :: tl) = min ((e.2 : ℚ) : WithTop ℚ) (pqMinW tl) := rfl

theorem pqMinW_le_of_mem (pq : List (String × ℚ)) (e : String × ℚ) (h : e ∈ pq) :
    pqMinW pq ≤ ((e.2 : ℚ) : WithTop ℚ) := by
  induction pq with
  | nil => cases h
  | cons hd tl ih =>
    rw [pqMinW_cons]
    rcases List.mem_cons.mp h with rfl | h
    · exact min_le_left _ _
    · exact le_trans (min_le_right _ _) (ih h)

theorem le_pqMinW (pq : List (String × ℚ)) (w : WithTop ℚ)
    (h : ∀ x ∈ pq, w ≤ ((x.2 : ℚ) : WithTop ℚ)) : w ≤ pqMinW pq := by
  induction pq with
  | nil => exact le_top
  | cons hd tl ih =>
    rw [pqMinW_cons]
    exact le_min (h hd (List.mem_cons_self _ _))
      (ih fun x hx => h x (List.mem_cons_of_mem _ hx))

theorem popMin_minW (pq : List (String × ℚ)) (e : String × ℚ)
    (rest : List (String × ℚ)) (h : popMin pq = some (e, rest)) :
    pqMinW pq = ((e.2 : ℚ) : WithTop ℚ) := by
  obtain ⟨hmem, hmin, _⟩ := popMin_spec pq e rest h
  exact le_antisymm (pqMinW_le_of_mem pq e hmem)
    (le_pqMinW pq _ fun x hx => WithTop.coe_le_coe.mpr (hmin x hx))

/-! Walk lemmas. -/

theorem IsWalk.nonneg {adj : String → List (String × ℚ)} (hnn : NonnegAdj adj)
    {u v : String} {c : ℚ} (h : IsWalk adj u v c) : 0 ≤ c := by
  induction h with
  | nil => exact le_refl 0
  | cons he _ ih => exact add_nonneg (hnn _ _ he) ih

theorem IsWalk.trans {adj : String → List (String × ℚ)} {u v w : String} {a b : ℚ}
    (h1 : IsWalk adj u v a) (h2 : IsWalk adj v w b) : IsWalk adj u w (a + b) := by
  induction h1 with
  | nil => simpa using h2
  | cons he _ ih =>
    have := IsWalk.cons he (ih h2)
    rwa [← add_assoc] at this

theorem IsWalk.single {adj : String → List (String × ℚ)} {v w : String} {c : ℚ}
    (h : (w, c) ∈ adj v) : IsWalk adj v w c := by
  have := IsWalk.cons h (IsWalk.nil w)
  rwa [add_zero] at this

theorem IsWalk.snoc {adj : String → List (String × ℚ)} {u v w : String} {a cw : ℚ}
    (h : IsWalk adj u v a) (hw : (w, cw) ∈ adj v) : IsWalk adj u w (a + cw) :=
  h.trans (IsWalk.single hw)

theorem IsWalk_congr {adj adj' : String → List (String × ℚ)}
    (h : ∀ x, adj x = adj' x) {u v : String} {c : ℚ} (hw : IsWalk adj u v c) :
    IsWalk adj' u v c := by
  induction hw with
  | nil => exact IsWalk.nil _
  | cons he _ ih => exact IsWalk.cons (h _ ▸ he) ih

theorem IsShortest_unique {adj : String → List (String × ℚ)} {s d : String} {q q' : ℚ}
    (h1 : IsShortest adj s d q) (h2 : IsShortest adj s d q') : q = q' :=
  le_antisymm (h1.2 _ h2.1) (h2.2 _ h1.1)

theorem adjRestrict_sub {adj : String → List (String × ℚ)} {K : List String}
    {u : String} {wc : String × ℚ} (h : wc ∈ adjRestrict adj K u) : wc ∈ adj u := by
  unfold adjRestrict at h
  by_cases hu : u ∈ K
  · rwa [if_pos hu] at h
  · rw [if_neg hu] at h
    cases h

theorem adjRestrict_nonneg {adj : String → List (String × ℚ)} {K : List String}
    (hnn : NonnegAdj adj) : NonnegAdj (adjRestrict adj K) :=
  fun u p hp => hnn u p (adjRestrict_sub hp)

theorem adjRestrict_eq_of_mem {adj : String → List (String × ℚ)} {K : List String}
    {u : String} (h : u ∈ K) : adjRestrict adj K u = adj u := if_pos h

/-! Distance-map lemmas. -/

theorem akeys_aset_isSome {β : Type} (m : List (String × β)) (k : String) (v : β)
    (h : (alookup m k).isSome = true) : akeys (aset m k v) = akeys m := by
  induction m with
  | nil => simp [alookup] at h
  | cons kv r ih =>
    obtain ⟨k', w⟩ := kv
    by_cases hk : k' = k
    · subst hk
      simp [aset, akeys]
    · rw [alookup, if_neg hk] at h
      simp only [aset, if_neg hk, akeys, List.map_cons]
      rw [show List.map Prod.fst (aset r k v) = List.map Prod.fst r from ih h]

theorem distLookup_stored (dist : List (String × WithTop ℚ)) (v : String)
    (w : WithTop ℚ) (h : alookup dist v = some w) : distLookup dist v = w := by
  simp [distLookup, h]

theorem distLookup_aset_le (dist : List (String × WithTop ℚ)) (w : String)
    (nv : WithTop ℚ) (h : nv ≤ distLookup dist w) (x : String) :
    distLookup (aset dist w nv) x ≤ distLookup dist x := by
  by_cases hx : x = w
  · subst hx
    rw [distLookup, alookup_aset_self]
    exact h
  · rw [distLookup, alookup_aset_ne _ _ _ _ hx]
    exact le_refl _

theorem stored_finite_of_le (dist : List (String × WithTop ℚ)) (v : String) (r : ℚ)
    (hk : (alookup dist v).isSome = true)
    (hle : distLookup dist v ≤ ((r : ℚ) : WithTop ℚ)) :
    ∃ q : ℚ, alookup dist v = some ((q : ℚ) : WithTop ℚ) ∧ q ≤ r := by
  obtain ⟨w, hw⟩ := Option.isSome_iff_exists.mp hk
  rw [distLookup_stored dist v w hw] at hle
  cases w with
  | top => exact absurd hle (by simp)
  | coe q => exact ⟨q, hw, WithTop.coe_le_coe.mp hle⟩

theorem ClosedAt_mono {adj : String → List (String × ℚ)}
    {d d' : List (String × WithTop ℚ)} (h : ∀ x, distLookup d' x ≤ distLookup d x)
    {v : String} {q : ℚ} (hc : ClosedAt adj d v q) : ClosedAt adj d' v q :=
  fun wc hwc => le_trans (h wc.1) (hc wc hwc)



/-! Preservation of the relaxation invariant through one neighbor
relaxation of the new calculator. -/

theorem relaxStep_inv (adj : String → List (String × ℚ)) (K : List String)
    (s u : String) (p : ℚ) (st : SpfState) (wc : String × ℚ)
    (hnn : NonnegAdj adj) (hp0 : 0 ≤ p) (hwc : wc ∈ adj u)
    (hinv : RelaxInv adj s K u p st) :
    RelaxInv adj s K u p (relaxStep s u p st wc) ∧
    (∀ x, distLookup (relaxStep s u p st wc).dist x ≤ distLookup st.dist x) ∧
    distLookup (relaxStep s u p st wc).dist wc.1 ≤ ((p + wc.2 : ℚ) : WithTop ℚ) ∧
    (relaxStep s u p st wc).pq.length ≤ st.pq.length + 1 ∧
    (∀ v, ClosedSP adj p st v → ClosedSP adj p (relaxStep s u p st wc) v) := by
  have hwc0 : 0 ≤ wc.2 := hnn u wc hwc
  unfold relaxStep
  dsimp only
  by_cases hrel : ((p + wc.2 : ℚ) : WithTop ℚ) < distLookup st.dist wc.1
  case neg =>
    rw [if_neg hrel]
    exact ⟨hinv, fun x => le_refl _, not_lt.mp hrel, Nat.le_succ _, fun v h => h⟩
  case pos =>
    rw [if_pos hrel]
    have hkey : (alookup st.dist wc.1).isSome = true := by
      cases hl : alookup st.dist wc.1 with
      | none =>
        exfalso
        rw [distLookup, hl] at hrel
        exact absurd (WithTop.coe_lt_coe.mp hrel) (by linarith)
      | some w => rfl
    have hns : wc.1 ≠ s := by
      intro hq
      rw [hq, distLookup_stored st.dist s _ hinv.hdist_s] at hrel
      exact absurd (WithTop.coe_lt_coe.mp hrel) (by linarith)
    have hnu : wc.1 ≠ u := by
      intro hq
      rw [hq, distLookup_stored st.dist u _ hinv.hu] at hrel
      exact absurd (WithTop.coe_lt_coe.mp hrel) (by linarith)
    have huK : u ∈ K := by
      rw [← hinv.hkeys]
      exact (alookup_isSome_iff_mem _ _).mp (by rw [hinv.hu]; rfl)
    have hadjRu : adjRestrict adj K u = adj u := adjRestrict_eq_of_mem huK
    have hptle : ∀ x, distLookup (aset st.dist wc.1 ((p + wc.2 : ℚ) : WithTop ℚ)) x ≤
        distLookup st.dist x :=
      distLookup_aset_le st.dist wc.1 _ (le_of_lt hrel)
    have hkeys' : akeys (aset st.dist wc.1 ((p + wc.2 : ℚ) : WithTop ℚ)) = K := by
      rw [akeys_aset_isSome _ _ _ hkey, hinv.hkeys]
    have hsome_iff : ∀ x, (alookup (aset st.dist wc.1 ((p + wc.2 : ℚ) : WithTop ℚ)) x).isSome
        = (alookup st.dist x).isSome := by
      intro x
      by_cases hx : x = wc.1
      · subst hx
        rw [alookup_aset_self, hkey]
        rfl
      · rw [alookup_aset_ne _ _ _ _ hx]
    have hminp' : ((p : ℚ) : WithTop ℚ) ≤ pqMinW (st.pq ++ [(wc.1, p + wc.2)]) := by
      apply le_pqMinW
      intro x hx
      rcases List.mem_append.mp hx with hx | hx
      · exact le_trans hinv.hminp (pqMinW_le_of_mem _ _ hx)
      · rcases List.mem_singleton.mp hx with rfl
        exact WithTop.coe_le_coe.mpr (by dsimp only; linarith)
    refine ⟨⟨hkeys', ?_, ?_, ?_, ?_, ?_, ?_, hminp'⟩, hptle, ?_, ?_, ?_⟩
    · rw [alookup_aset_ne _ _ _ _ (Ne.symm hns)]
      exact hinv.hdist_s
    · intro v q hv
      by_cases hx : v = wc.1
      · subst hx
        rw [alookup_aset_self] at hv
        have hq : q = p + wc.2 := by
          have := Option.some.inj hv
          exact_mod_cast this.symm
        subst hq
        obtain ⟨hp0', hwalk⟩ := hinv.hsound u p hinv.hu
        exact ⟨by linarith, hwalk.snoc (by rw [hadjRu]; exact hwc)⟩
      · rw [alookup_aset_ne _ _ _ _ hx] at hv
        exact hinv.hsound v q hv
    · intro v q hvs hv
      by_cases hx : v = wc.1
      · subst hx
        rw [alookup_aset_self] at hv
        have hq : q = p + wc.2 := by
          have := Option.some.inj hv
          exact_mod_cast this.symm
        subst hq
        by_cases hus : u = s
        · subst hus
          have hp00 : p = 0 := by
            have := hinv.hu.symm.trans hinv.hdist_s
            exact_mod_cast Option.some.inj this
          refine ⟨wc.1, wc.2, 0, ?_, ?_, IsWalk.nil _, by rw [hp00]; ring⟩
          · rw [if_pos rfl, alookup_aset_self]
          · exact (show wc = (wc.1, wc.2) from rfl) ▸ hwc
        · obtain ⟨n, c0, cw, hn, hedge, hwalk, hq⟩ := hinv.hnh u p hus hinv.hu
          refine ⟨n, c0, cw + wc.2, ?_, hedge, ?_, by rw [hq]; ring⟩
          · rw [if_neg hus, alookup_aset_self, hn]
            rfl
          · exact hwalk.snoc (by rw [hadjRu]; exact hwc)
      · rw [alookup_aset_ne _ _ _ _ hx] at hv
        obtain ⟨n, c0, cw, hn, hedge, hwalk, hq⟩ := hinv.hnh v q hvs hv
        refine ⟨n, c0, cw, ?_, hedge, hwalk, hq⟩
        by_cases hus : u = s
        · rw [if_pos hus, alookup_aset_ne _ _ _ _ hx]
          exact hn
        · rw [if_neg hus, alookup_aset_ne _ _ _ _ hx]
          exact hn
    · intro e he
      rcases List.mem_append.mp he with he | he
      · obtain ⟨h1, h2, h3⟩ := hinv.hentries e he
        exact ⟨h1, by rw [hsome_iff]; exact h2, le_trans (hptle e.1) h3⟩
      · rcases List.mem_singleton.mp he with rfl
        refine ⟨by dsimp only; linarith, ?_, ?_⟩
        · dsimp only
          rw [alookup_aset_self]
          rfl
        · dsimp only
          rw [distLookup, alookup_aset_self]
          rfl
    · rw [alookup_aset_ne _ _ _ _ (Ne.symm hnu)]
      exact hinv.hu
    · intro v q hvu hv
      by_cases hx : v = wc.1
      · subst hx
        rw [alookup_aset_self] at hv
        have hq : q = p + wc.2 := by
          have := Option.some.inj hv
          exact_mod_cast this.symm
        subst hq
        exact Or.inl (List.mem_append.mpr (Or.inr (List.mem_singleton.mpr rfl)))
      · rw [alookup_aset_ne _ _ _ _ hx] at hv
        rcases hinv.hpcm' v q hvu hv with hpend | ⟨hcl, hM, hqp⟩
        · exact Or.inl (List.mem_append.mpr (Or.inl hpend))
        · refine Or.inr ⟨ClosedAt_mono hptle hcl, ?_, hqp⟩
          apply le_pqMinW
          intro x hx'
          rcases List.mem_append.mp hx' with hx' | hx'
          · exact le_trans hM (pqMinW_le_of_mem _ _ hx')
          · rcases List.mem_singleton.mp hx' with rfl
            exact WithTop.coe_le_coe.mpr (by dsimp only; linarith)
    · rw [distLookup, alookup_aset_self]
      exact le_refl _
    · simp
    · intro v hv
      obtain ⟨q, hstore, hcl, hM, hqp⟩ := hv
      have hx : v ≠ wc.1 := by
        intro hx
        subst hx
        rw [distLookup_stored st.dist wc.1 _ hstore] at hrel
        have := WithTop.coe_lt_coe.mp hrel
        linarith
      refine ⟨q, ?_, ClosedAt_mono hptle hcl, ?_, hqp⟩
      · rw [alookup_aset_ne _ _ _ _ hx]
        exact hstore
      · apply le_pqMinW
        intro x hx'
        rcases List.mem_append.mp hx' with hx' | hx'
        · exact le_trans hM (pqMinW_le_of_mem _ _ hx')
        · rcases List.mem_singleton.mp hx' with rfl
          exact WithTop.coe_le_coe.mpr (by dsimp only; linarith)



theorem relaxGo (adj : String → List (String × ℚ)) (K : List String) (s u : String)
    (p : ℚ) (hnn : NonnegAdj adj) (hp0 : 0 ≤ p) :
    ∀ (todo : List (String × ℚ)) (st : SpfState), (∀ wc ∈ todo, wc ∈ adj u) →
      RelaxInv adj s K u p st →
      RelaxInv adj s K u p (todo.foldl (relaxStep s u p) st) ∧
      (∀ x, distLookup (todo.foldl (relaxStep s u p) st).dist x ≤ distLookup st.dist x) ∧
      (∀ wc ∈ todo, distLookup (todo.foldl (relaxStep s u p) st).dist wc.1 ≤
        ((p + wc.2 : ℚ) : WithTop ℚ)) ∧
      (todo.foldl (relaxStep s u p) st).pq.length ≤ st.pq.length + todo.length ∧
      (∀ v, ClosedSP adj p st v → ClosedSP adj p (todo.foldl (relaxStep s u p) st) v) := by
  intro todo
  induction todo with
  | nil =>
    intro st _ hinv
    exact ⟨hinv, fun x => le_refl _, fun wc hwc => absurd hwc (List.not_mem_nil wc),
      Nat.le_add_right _ _, fun v h => h⟩
  | cons wc todo ih =>
    intro st htodo hinv
    obtain ⟨hinv1, hpt1, hwc1, hlen1, hcsp1⟩ :=
      relaxStep_inv adj K s u p st wc hnn hp0 (htodo wc (List.mem_cons_self _ _)) hinv
    obtain ⟨hinvF, hptF, hdoneF, hlenF, hcspF⟩ :=
      ih (relaxStep s u p st wc) (fun w hw => htodo w (List.mem_cons_of_mem _ hw)) hinv1
    rw [List.foldl_cons]
    refine ⟨hinvF, fun x => le_trans (hptF x) (hpt1 x), ?_, ?_,
      fun v h => hcspF v (hcsp1 v h)⟩
    · intro w hw
      rcases List.mem_cons.mp hw with rfl | hw
      · exact le_trans (hptF w.1) hwc1
      · exact hdoneF w hw
    · rw [List.length_cons]
      omega

theorem relaxAll_noop (adj : String → List (String × ℚ)) (s u : String) (p : ℚ) :
    ∀ (todo : List (String × ℚ)) (st : SpfState),
      (∀ wc ∈ todo, distLookup st.dist wc.1 ≤ ((p + wc.2 : ℚ) : WithTop ℚ)) →
      todo.foldl (relaxStep s u p) st = st := by
  intro todo
  induction todo with
  | nil => intro st _; rfl
  | cons wc todo ih =>
    intro st h
    rw [List.foldl_cons]
    have hstep : relaxStep s u p st wc = st := by
      unfold relaxStep
      dsimp only
      rw [if_neg (not_lt.mpr (h wc (List.mem_cons_self _ _)))]
    rw [hstep]
    exact ih st (fun w hw => h w (List.mem_cons_of_mem _ hw))

theorem spf_step_stale (adj : String → List (String × ℚ)) (K : List String) (s : String)
    (st : SpfState) (e : String × ℚ) (rest : List (String × ℚ))
    (hinv : SpfInv adj s K st) (hpop : popMin st.pq = some (e, rest))
    (hstale : distLookup st.dist e.1 < ((e.2 : ℚ) : WithTop ℚ)) :
    SpfInv adj s K { st with pq := rest } ∧
    (∀ v, ClosedM adj st v → ClosedM adj { st with pq := rest } v) := by
  have hrestmin : ∀ w : WithTop ℚ, w ≤ pqMinW st.pq → w ≤ pqMinW rest := by
    intro w hw
    apply le_pqMinW
    intro x hx
    exact le_trans hw (pqMinW_le_of_mem _ _ (popMin_rest_mem _ _ _ hpop x hx))
  constructor
  · refine ⟨hinv.hkeys, hinv.hdist_s, hinv.hsound, hinv.hnh, ?_, ?_⟩
    · intro x hx
      exact hinv.hentries x (popMin_rest_mem _ _ _ hpop x hx)
    · intro v q hv
      rcases hinv.hpcm v q hv with hpend | ⟨hcl, hM⟩
      · left
        apply popMin_mem_rest_of_ne _ _ _ hpop _ hpend
        intro hq
        rw [← hq] at hstale
        rw [distLookup_stored st.dist v _ hv] at hstale
        exact absurd (WithTop.coe_lt_coe.mp hstale) (lt_irrefl q)
      · exact Or.inr ⟨hcl, hrestmin _ hM⟩
  · intro v hv
    obtain ⟨q, hstore, hcl, hM⟩ := hv
    exact ⟨q, hstore, hcl, hrestmin _ hM⟩

theorem spf_step_active (adj : String → List (String × ℚ)) (K : List String) (s : String)
    (st : SpfState) (e : String × ℚ) (rest : List (String × ℚ))
    (hnn : NonnegAdj adj) (hinv : SpfInv adj s K st)
    (hpop : popMin st.pq = some (e, rest))
    (hact : ¬ distLookup st.dist e.1 < ((e.2 : ℚ) : WithTop ℚ)) :
    SpfInv adj s K (relaxAll s e.1 e.2 (adj e.1) { st with pq := rest }) ∧
    (∀ v, ClosedM adj st v →
      ClosedM adj (relaxAll s e.1 e.2 (adj e.1) { st with pq := rest }) v) ∧
    ClosedM adj (relaxAll s e.1 e.2 (adj e.1) { st with pq := rest }) e.1 ∧
    (relaxAll s e.1 e.2 (adj e.1) { st with pq := rest }).pq.length + 1 ≤
      st.pq.length + (adj e.1).length := by
  obtain ⟨hp0, hkey, hle⟩ := hinv.hentries e (popMin_spec _ _ _ hpop).1
  have hstored : alookup st.dist e.1 = some ((e.2 : ℚ) : WithTop ℚ) := by
    obtain ⟨q, hq, hqle⟩ := stored_finite_of_le st.dist e.1 e.2 hkey hle
    have h1 : ((e.2 : ℚ) : WithTop ℚ) ≤ ((q : ℚ) : WithTop ℚ) := by
      rw [← distLookup_stored st.dist e.1 _ hq]
      exact not_lt.mp hact
    have : q = e.2 := le_antisymm hqle (WithTop.coe_le_coe.mp h1)
    rwa [this] at hq
  have hminW := popMin_minW _ _ _ hpop
  have hrestmin : ∀ w : WithTop ℚ, w ≤ pqMinW st.pq → w ≤ pqMinW rest := by
    intro w hw
    apply le_pqMinW
    intro x hx
    exact le_trans hw (pqMinW_le_of_mem _ _ (popMin_rest_mem _ _ _ hpop x hx))
  have hinv1 : RelaxInv adj s K e.1 e.2 { st with pq := rest } := by
    refine ⟨hinv.hkeys, hinv.hdist_s, hinv.hsound, hinv.hnh, ?_, hstored, ?_, ?_⟩
    · intro x hx
      exact hinv.hentries x (popMin_rest_mem _ _ _ hpop x hx)
    · intro v q hvu hv
      rcases hinv.hpcm v q hv with hpend | ⟨hcl, hM⟩
      · left
        apply popMin_mem_rest_of_ne _ _ _ hpop _ hpend
        intro hq
        exact hvu (congrArg Prod.fst hq)
      · refine Or.inr ⟨hcl, hrestmin _ hM, ?_⟩
        rw [hminW] at hM
        exact WithTop.coe_le_coe.mp hM
    · apply hrestmin
      rw [hminW]
  obtain ⟨hinvF, hptF, hdoneF, hlenF, hcspF⟩ :=
    relaxGo adj K s e.1 e.2 hnn hp0 (adj e.1) { st with pq := rest }
      (fun wc hwc => hwc) hinv1
  have hclosedF : ClosedM adj (relaxAll s e.1 e.2 (adj e.1) { st with pq := rest }) e.1 :=
    ⟨e.2, hinvF.hu, fun wc hwc => hdoneF wc hwc, hinvF.hminp⟩
  refine ⟨?_, ?_, hclosedF, ?_⟩
  · refine ⟨hinvF.hkeys, hinvF.hdist_s, hinvF.hsound, hinvF.hnh, hinvF.hentries, ?_⟩
    intro v q hv
    by_cases hvu : v = e.1
    · subst hvu
      have hq : q = e.2 := by
        have := hv.symm.trans hinvF.hu
        exact_mod_cast Option.some.inj this
      subst hq
      exact Or.inr ⟨fun wc hwc => hdoneF wc hwc, hinvF.hminp⟩
    · rcases hinvF.hpcm' v q hvu hv with hpend | ⟨hcl, hM, _⟩
      · exact Or.inl hpend
      · exact Or.inr ⟨hcl, hM⟩
  · intro v hv
    obtain ⟨q, hstore, hcl, hM⟩ := hv
    have hcsp : ClosedSP adj e.2 { st with pq := rest } v := by
      refine ⟨q, hstore, hcl, hrestmin _ hM, ?_⟩
      rw [hminW] at hM
      exact WithTop.coe_le_coe.mp hM
    obtain ⟨q', hstore', hcl', hM', _⟩ := hcspF v hcsp
    exact ⟨q', hstore', hcl', hM'⟩
  · have := popMin_length _ _ _ hpop
    dsimp only at hlenF
    unfold relaxAll
    omega



/-! Termination potential of the lazy-deletion loop. -/

theorem closedMB_iff (adj : String → List (String × ℚ)) (st : SpfState) (v : String) :
    closedMB adj st v = true ↔ ClosedM adj st v := by
  cases h : alookup st.dist v with
  | none =>
    constructor
    · intro hb
      rw [show closedMB adj st v = false from by unfold closedMB; rw [h]] at hb
      cases hb
    · rintro ⟨q, hq, -⟩
      rw [h] at hq
      cases hq
  | some w =>
    cases w with
    | top =>
      constructor
      · intro hb
        rw [show closedMB adj st v = false from by unfold closedMB; rw [h]] at hb
        cases hb
      · rintro ⟨q, hq, -, -⟩
        rw [h] at hq
        exact absurd (Option.some.inj hq).symm (by simp)
    | coe q =>
      unfold ClosedM
      simp only [closedMB, h, Bool.and_eq_true, List.all_eq_true, decide_eq_true_eq,
        Option.some.injEq]
      constructor
      · rintro ⟨h1, h2⟩
        exact ⟨q, rfl, fun wc hwc => h1 wc hwc, h2⟩
      · rintro ⟨q', hq', hcl, hM⟩
        have hqq : q' = q := by exact_mod_cast hq'.symm
        subst hqq
        exact ⟨fun wc hwc => hcl wc hwc, hM⟩

theorem ClosedM_pop_pres (adj : String → List (String × ℚ)) (st : SpfState)
    (e : String × ℚ) (rest : List (String × ℚ)) (hpop : popMin st.pq = some (e, rest))
    (v : String) (h : ClosedM adj st v) : ClosedM adj { st with pq := rest } v := by
  obtain ⟨q, hstore, hcl, hM⟩ := h
  refine ⟨q, hstore, hcl, ?_⟩
  apply le_pqMinW
  intro x hx
  exact le_trans hM (pqMinW_le_of_mem _ _ (popMin_rest_mem _ _ _ hpop x hx))

theorem active_stored (adj : String → List (String × ℚ)) (K : List String) (s : String)
    (st : SpfState) (e : String × ℚ) (rest : List (String × ℚ))
    (hinv : SpfInv adj s K st) (hpop : popMin st.pq = some (e, rest))
    (hact : ¬ distLookup st.dist e.1 < ((e.2 : ℚ) : WithTop ℚ)) :
    alookup st.dist e.1 = some ((e.2 : ℚ) : WithTop ℚ) := by
  obtain ⟨hp0, hkey, hle⟩ := hinv.hentries e (popMin_spec _ _ _ hpop).1
  obtain ⟨q, hq, hqle⟩ := stored_finite_of_le st.dist e.1 e.2 hkey hle
  have h1 : ((e.2 : ℚ) : WithTop ℚ) ≤ ((q : ℚ) : WithTop ℚ) := by
    rw [← distLookup_stored st.dist e.1 _ hq]
    exact not_lt.mp hact
  have : q = e.2 := le_antisymm hqle (WithTop.coe_le_coe.mp h1)
  rwa [this] at hq

theorem sum_filter_imp (K : List String) (f : String → ℕ) (p q : String → Bool)
    (h : ∀ v ∈ K, p v = true → q v = true) :
    ((K.filter p).map f).sum ≤ ((K.filter q).map f).sum := by
  induction K with
  | nil => exact le_refl _
  | cons v K ih =>
    have ih' := ih (fun x hx hp => h x (List.mem_cons_of_mem _ hx) hp)
    rw [List.filter_cons, List.filter_cons]
    cases hp : p v
    · rw [if_neg (by simp [hp])]
      cases hq : q v
      · rw [if_neg (by simp [hq])]
        exact ih'
      · rw [if_pos (by simp [hq]), List.map_cons, List.sum_cons]
        omega
    · have hq := h v (List.mem_cons_self _ _) hp
      rw [if_pos (by simp [hp]), if_pos (by simp [hq]),
        List.map_cons, List.sum_cons, List.map_cons, List.sum_cons]
      omega

theorem sum_filter_drop (K : List String) (f : String → ℕ) (p q : String → Bool)
    (h : ∀ v ∈ K, p v = true → q v = true) (u : String) (hu : u ∈ K)
    (hq : q u = true) (hp : p u = false) :
    ((K.filter p).map f).sum + f u ≤ ((K.filter q).map f).sum := by
  induction K with
  | nil => cases hu
  | cons v K ih =>
    by_cases hv : v = u
    · subst hv
      rw [List.filter_cons, List.filter_cons, if_neg (by simp [hp]),
        if_pos (by simp [hq]), List.map_cons, List.sum_cons]
      have := sum_filter_imp K f p q (fun x hx hpx => h x (List.mem_cons_of_mem _ hx) hpx)
      omega
    · have hu' : u ∈ K := by
        rcases List.mem_cons.mp hu with h' | h'
        · exact absurd h'.symm hv
        · exact h'
      have ih' := ih (fun x hx hpx => h x (List.mem_cons_of_mem _ hx) hpx) hu'
      rw [List.filter_cons, List.filter_cons]
      cases hpv : p v
      · rw [if_neg (by simp [hpv])]
        cases hqv : q v
        · rw [if_neg (by simp [hqv])]
          exact ih'
        · rw [if_pos (by simp [hqv]), List.map_cons, List.sum_cons]
          omega
      · have hqv := h v (List.mem_cons_self _ _) hpv
        rw [if_pos (by simp [hpv]), if_pos (by simp [hqv]),
          List.map_cons, List.sum_cons, List.map_cons, List.sum_cons]
        omega

theorem spfPhi_dec_pop (adj : String → List (String × ℚ)) (st st' : SpfState)
    (hdist : st'.dist = st.dist) (hlen : st'.pq.length < st.pq.length)
    (hpres : ∀ v, ClosedM adj st v → ClosedM adj st' v) :
    spfPhi adj st' < spfPhi adj st := by
  unfold spfPhi
  rw [hdist]
  have hsum := sum_filter_imp (akeys st.dist) (fun v => 1 + (adj v).length)
    (fun v => ! closedMB adj st' v) (fun v => ! closedMB adj st v) ?_
  · omega
  · intro v _ hpv
    rw [Bool.not_eq_true'] at hpv ⊢
    cases hcb : closedMB adj st v
    · rfl
    · exfalso
      have := hpres v ((closedMB_iff adj st v).mp hcb)
      rw [← closedMB_iff adj st' v] at this
      rw [this] at hpv
      cases hpv

theorem spfPhi_dec_stale (adj : String → List (String × ℚ)) (st : SpfState)
    (e : String × ℚ) (rest : List (String × ℚ)) (hpop : popMin st.pq = some (e, rest)) :
    spfPhi adj { st with pq := rest } < spfPhi adj st := by
  apply spfPhi_dec_pop
  · rfl
  · have := popMin_length _ _ _ hpop
    dsimp only
    omega
  · exact ClosedM_pop_pres adj st e rest hpop

theorem spfPhi_dec_active (adj : String → List (String × ℚ)) (K : List String)
    (s : String) (st : SpfState) (e : String × ℚ) (rest : List (String × ℚ))
    (hnn : NonnegAdj adj) (hinv : SpfInv adj s K st)
    (hpop : popMin st.pq = some (e, rest))
    (hact : ¬ distLookup st.dist e.1 < ((e.2 : ℚ) : WithTop ℚ)) :
    spfPhi adj (relaxAll s e.1 e.2 (adj e.1) { st with pq := rest }) < spfPhi adj st := by
  by_cases hcm : ClosedM adj st e.1
  · have hnoop : relaxAll s e.1 e.2 (adj e.1) { st with pq := rest } =
        { st with pq := rest } := by
      apply relaxAll_noop adj s e.1 e.2
      obtain ⟨q, hstore, hcl, hM⟩ := hcm
      have hq : q = e.2 := by
        have := hstore.symm.trans (active_stored adj K s st e rest hinv hpop hact)
        exact_mod_cast Option.some.inj this
      subst hq
      intro wc hwc
      exact hcl wc hwc
    rw [hnoop]
    exact spfPhi_dec_stale adj st e rest hpop
  · obtain ⟨hinvF, hpres, hclosedF, hlen⟩ :=
      spf_step_active adj K s st e rest hnn hinv hpop hact
    unfold spfPhi
    have hkeq : akeys (relaxAll s e.1 e.2 (adj e.1) { st with pq := rest }).dist =
        akeys st.dist := by
      rw [hinvF.hkeys, hinv.hkeys]
    rw [hkeq]
    have he1 : e.1 ∈ akeys st.dist :=
      (alookup_isSome_iff_mem _ _).mp (hinv.hentries e (popMin_spec _ _ _ hpop).1).2.1
    have hdrop := sum_filter_drop (akeys st.dist) (fun v => 1 + (adj v).length)
      (fun v => ! closedMB adj (relaxAll s e.1 e.2 (adj e.1) { st with pq := rest }) v)
      (fun v => ! closedMB adj st v) ?_ e.1 he1 ?_ ?_
    · dsimp only at hdrop
      omega
    · intro v _ hpv
      rw [Bool.not_eq_true'] at hpv ⊢
      cases hcb : closedMB adj st v
      · rfl
      · exfalso
        have := hpres v ((closedMB_iff adj st v).mp hcb)
        rw [← closedMB_iff adj _ v] at this
        rw [this] at hpv
        cases hpv
    · rw [Bool.not_eq_true']
      cases hcb : closedMB adj st e.1
      · rfl
      · exact absurd ((closedMB_iff adj st e.1).mp hcb) hcm
    · have hcb := (closedMB_iff adj
        (relaxAll s e.1 e.2 (adj e.1) { st with pq := rest }) e.1).mpr hclosedF
      dsimp only
      rw [hcb]
      rfl

theorem spfLoop_spec (adj : String → List (String × ℚ)) (s : String) (K : List String)
    (hnn : NonnegAdj adj) :
    ∀ (fuel : ℕ) (st : SpfState), SpfInv adj s K st → spfPhi adj st ≤ fuel →
      SpfInv adj s K (spfLoop adj s fuel st) ∧ (spfLoop adj s fuel st).pq = [] := by
  intro fuel
  induction fuel with
  | zero =>
    intro st hinv hphi
    have hlen : st.pq.length = 0 := by
      unfold spfPhi at hphi
      omega
    exact ⟨hinv, List.length_eq_zero.mp hlen⟩
  | succ fuel ih =>
    intro st hinv hphi
    cases hpop : popMin st.pq with
    | none =>
      simp only [spfLoop, hpop]
      exact ⟨hinv, (popMin_eq_none_iff _).mp hpop⟩
    | some er =>
      obtain ⟨e, rest⟩ := er
      simp only [spfLoop, hpop]
      by_cases hact : distLookup st.dist e.1 < ((e.2 : ℚ) : WithTop ℚ)
      · rw [if_pos hact]
        apply ih
        · exact (spf_step_stale adj K s st e rest hinv hpop hact).1
        · have := spfPhi_dec_stale adj st e rest hpop
          omega
      · rw [if_neg hact]
        apply ih
        · exact (spf_step_active adj K s st e rest hnn hinv hpop hact).1
        · have := spfPhi_dec_active adj K s st e rest hnn hinv hpop hact
          omega



/-! Initial state of the SPF loop. -/

theorem alookup_isSome_iff_akeys {β : Type} (m : List (String × β)) (x : String) :
    (alookup m x).isSome = true ↔ x ∈ akeys m :=
  alookup_isSome_iff_mem m x


theorem alookup_foldl_aset_top (L : List String) (m : List (String × WithTop ℚ))
    (v : String) :
    alookup (L.foldl (fun m i => aset m i (⊤ : WithTop ℚ)) m) v =
      if v ∈ L then some ⊤ else alookup m v := by
  induction L generalizing m with
  | nil => simp
  | cons i L ih =>
    rw [List.foldl_cons, ih]
    by_cases hv : v ∈ L
    · rw [if_pos hv, if_pos (List.mem_cons_of_mem _ hv)]
    · rw [if_neg hv]
      by_cases hvi : v = i
      · subst hvi
        rw [alookup_aset_self, if_pos (List.mem_cons_self _ _)]
      · rw [alookup_aset_ne _ _ _ _ hvi,
          if_neg (fun hm => (List.mem_cons.mp hm).elim hvi hv)]

theorem spfInit_dist (allIDs : List String) (s v : String) :
    alookup (spfInit allIDs s).dist v =
      if v = s then some ((0 : ℚ) : WithTop ℚ)
      else if v ∈ allIDs then some ⊤ else none := by
  unfold spfInit
  dsimp only
  by_cases hv : v = s
  · subst hv
    rw [alookup_aset_self, if_pos rfl]
  · rw [alookup_aset_ne _ _ _ _ hv, alookup_foldl_aset_top, if_neg hv]
    by_cases hm : v ∈ allIDs
    · rw [if_pos hm, if_pos hm]
    · rw [if_neg hm, if_neg hm]
      rfl

theorem spfInit_mem_keys (allIDs : List String) (s v : String) :
    v ∈ akeys (spfInit allIDs s).dist ↔ (v = s ∨ v ∈ allIDs) := by
  rw [← alookup_isSome_iff_akeys, spfInit_dist]
  by_cases h1 : v = s
  · simp [h1]
  · by_cases h2 : v ∈ allIDs <;> simp [h1, h2]

theorem spfInit_inv (adj : String → List (String × ℚ)) (allIDs : List String)
    (s : String) :
    SpfInv adj s (akeys (spfInit allIDs s).dist) (spfInit allIDs s) := by
  have hds : alookup (spfInit allIDs s).dist s = some ((0 : ℚ) : WithTop ℚ) := by
    rw [spfInit_dist, if_pos rfl]
  refine ⟨rfl, hds, ?_, ?_, ?_, ?_⟩
  · intro v q hv
    rw [spfInit_dist] at hv
    by_cases h1 : v = s
    · rw [if_pos h1] at hv
      have : (0 : ℚ) = q := by exact_mod_cast Option.some.inj hv
      subst h1
      rw [← this]
      exact ⟨le_refl 0, IsWalk.nil v⟩
    · rw [if_neg h1] at hv
      by_cases h2 : v ∈ allIDs
      · rw [if_pos h2] at hv
        exact absurd (Option.some.inj hv).symm (by simp)
      · rw [if_neg h2] at hv
        cases hv
  · intro v q hvs hv
    rw [spfInit_dist] at hv
    rw [if_neg hvs] at hv
    by_cases h2 : v ∈ allIDs
    · rw [if_pos h2] at hv
      exact absurd (Option.some.inj hv).symm (by simp)
    · rw [if_neg h2] at hv
      cases hv
  · intro e he
    unfold spfInit at he
    dsimp only at he
    rcases List.mem_singleton.mp he with rfl
    refine ⟨le_refl 0, ?_, ?_⟩
    · rw [hds]
      rfl
    · rw [distLookup_stored _ _ _ hds]
  · intro v q hv
    rw [spfInit_dist] at hv
    by_cases h1 : v = s
    · rw [if_pos h1] at hv
      have hq0 : (0 : ℚ) = q := by exact_mod_cast Option.some.inj hv
      subst h1
      left
      unfold spfInit
      dsimp only
      rw [← hq0]
      exact List.mem_singleton_self _
    · rw [if_neg h1] at hv
      by_cases h2 : v ∈ allIDs
      · rw [if_pos h2] at hv
        exact absurd (Option.some.inj hv).symm (by simp)
      · rw [if_neg h2] at hv
        cases hv

theorem spfPhi_le_fuel (adj : String → List (String × ℚ))
    (st : SpfState) (hpq : st.pq.length ≤ 1) :
    spfPhi adj st ≤ spfFuel st.dist adj := by
  unfold spfPhi spfFuel
  have h1 : (((akeys st.dist).filter fun v => ! closedMB adj st v).map
      fun v => 1 + (adj v).length).sum ≤
      ((akeys st.dist).map fun v => 1 + (adj v).length).sum := by
    have := sum_filter_imp (akeys st.dist) (fun v => 1 + (adj v).length)
      (fun v => ! closedMB adj st v) (fun _ => true) (fun v _ _ => rfl)
    simpa using this
  have h2 : ((akeys st.dist).map fun v => 1 + (adj v).length).sum =
      (st.dist.map fun kv => 1 + (adj kv.1).length).sum := by
    unfold akeys
    rw [List.map_map]
    rfl
  omega

/-! Final-state facts of the lazy-deletion loop. -/

theorem adjRestrict_mem_key {adj : String → List (String × ℚ)} {K : List String}
    {u : String} {wc : String × ℚ} (h : wc ∈ adjRestrict adj K u) : u ∈ K := by
  unfold adjRestrict at h
  by_cases hu : u ∈ K
  · exact hu
  · rw [if_neg hu] at h
    cases h

theorem dist_le_walk (adj : String → List (String × ℚ)) (K : List String)
    (dist : List (String × WithTop ℚ)) (hkeys : akeys dist = K)
    (hclosed : ∀ v q, alookup dist v = some ((q : ℚ) : WithTop ℚ) → ClosedAt adj dist v q) :
    ∀ {u t : String} {c : ℚ}, IsWalk (adjRestrict adj K) u t c →
      ∀ r : ℚ, distLookup dist u ≤ ((r : ℚ) : WithTop ℚ) →
        distLookup dist t ≤ ((r + c : ℚ) : WithTop ℚ) := by
  intro u t c hw
  induction hw with
  | nil v =>
    intro r hr
    rwa [add_zero]
  | @cons u v w ce cw he hrest ih =>
    intro r hr
    have huK : u ∈ K := adjRestrict_mem_key he
    have hkey : (alookup dist u).isSome = true := by
      rw [alookup_isSome_iff_akeys, hkeys]
      exact huK
    obtain ⟨q, hq, hqr⟩ := stored_finite_of_le dist u r hkey hr
    have hv1 : distLookup dist v ≤ ((q + ce : ℚ) : WithTop ℚ) :=
      hclosed u q hq (v, ce) (adjRestrict_sub he)
    have hv2 : distLookup dist v ≤ ((r + ce : ℚ) : WithTop ℚ) :=
      le_trans hv1 (WithTop.coe_le_coe.mpr (by linarith))
    have := ih (r + ce) hv2
    rwa [add_assoc] at this

theorem mem_alookup_of_nodup {β : Type} (l : List (String × β)) (k : String) (v : β)
    (hnd : (akeys l).Nodup) (hm : (k, v) ∈ l) : alookup l k = some v := by
  induction l with
  | nil => cases hm
  | cons kv r ih =>
    obtain ⟨k', w⟩ := kv
    rcases List.mem_cons.mp hm with heq | hm'
    · injection heq with hk hw
      subst hk
      subst hw
      rw [alookup, if_pos rfl]
    · have hk' : k' ≠ k := by
        intro hk
        subst hk
        have : k' ∈ akeys r := List.mem_map.mpr ⟨(k', v), hm', rfl⟩
        exact (List.nodup_cons.mp hnd).1 this
      rw [alookup, if_neg hk']
      exact ih (List.nodup_cons.mp hnd).2 hm'

theorem akeys_aset_formula {β : Type} (m : List (String × β)) (k : String) (v : β) :
    akeys (aset m k v) =
      if (alookup m k).isSome = true then akeys m else akeys m ++ [k] := by
  have hcons : ∀ (e : String × β) (l : List (String × β)), akeys (e :: l) = e.1 :: akeys l :=
    fun e l => rfl
  induction m with
  | nil => simp [aset, akeys, alookup]
  | cons kv r ih =>
    obtain ⟨k', w⟩ := kv
    by_cases hk : k' = k
    · subst hk
      simp [aset, akeys, alookup]
    · rw [alookup, if_neg hk]
      rw [show aset ((k', w) :: r) k v = (k', w) :: aset r k v from by rw [aset, if_neg hk]]
      rw [hcons, hcons, ih]
      by_cases hs : (alookup r k).isSome = true
      · rw [if_pos hs, if_pos hs]
      · rw [if_neg hs, if_neg hs, List.cons_append]

theorem akeys_aset_nodup {β : Type} (m : List (String × β)) (k : String) (v : β)
    (h : (akeys m).Nodup) : (akeys (aset m k v)).Nodup := by
  rw [akeys_aset_formula]
  by_cases hs : (alookup m k).isSome = true
  · rwa [if_pos hs]
  · rw [if_neg hs]
    rw [List.nodup_append]
    refine ⟨h, List.nodup_singleton _, ?_⟩
    intro x hx hx'
    rcases List.mem_singleton.mp hx' with rfl
    rw [← alookup_isSome_iff_akeys] at hx
    rw [hx] at hs
    exact hs rfl

theorem spfInit_keys_nodup (allIDs : List String) (s : String) :
    (akeys (spfInit allIDs s).dist).Nodup := by
  unfold spfInit
  dsimp only
  apply akeys_aset_nodup
  have : ∀ (L : List String) (m : List (String × WithTop ℚ)), (akeys m).Nodup →
      (akeys (L.foldl (fun m i => aset m i (⊤ : WithTop ℚ)) m)).Nodup := by
    intro L
    induction L with
    | nil => intro m hm; exact hm
    | cons i L ih =>
      intro m hm
      rw [List.foldl_cons]
      exact ih _ (akeys_aset_nodup m i ⊤ hm)
  exact this allIDs [] (List.nodup_nil)



/-! Final-state facts of the new calculator. -/

theorem collectStep_src (s : String) (st : SpfState) (rt : RouteTable)
    (kv : String × WithTop ℚ) (h : kv.1 = s) : collectStep s st rt kv = rt := by
  unfold collectStep
  rw [if_pos h]

theorem collectStep_top (s : String) (st : SpfState) (rt : RouteTable)
    (k : String) (h : ¬ k = s) : collectStep s st rt (k, ⊤) = rt := by
  unfold collectStep
  rw [if_neg h]

theorem collectStep_fin (s : String) (st : SpfState) (rt : RouteTable)
    (k : String) (q : ℚ) (h : ¬ k = s) :
    collectStep s st rt (k, ((q : ℚ) : WithTop ℚ)) =
      rt.AddRoute
        { Destination := k, NextHop := (alookup st.nextHop k).getD "",
          Cost := q, Path := buildPath st.previous s k } := by
  unfold collectStep
  rw [if_neg h]

theorem collect_pres_none (s : String) (st : SpfState) (d : String) :
    ∀ (l : List (String × WithTop ℚ)) (rt : RouteTable), alookup l d = none →
      alookup ((l.foldl (collectStep s st) rt).routes) d = alookup rt.routes d := by
  intro l
  induction l with
  | nil => intro rt _; rfl
  | cons kv l' ih =>
    obtain ⟨k, w⟩ := kv
    intro rt hl
    rw [alookup] at hl
    by_cases hkd : k = d
    · rw [if_pos hkd] at hl
      cases hl
    · rw [if_neg hkd] at hl
      rw [List.foldl_cons, ih _ hl]
      by_cases hks : k = s
      · rw [collectStep_src s st rt (k, w) hks]
      · cases w with
        | top => rw [collectStep_top s st rt k hks]
        | coe q =>
          rw [collectStep_fin s st rt k q hks]
          unfold RouteTable.AddRoute
          dsimp only
          exact alookup_aset_ne _ _ _ _ (Ne.symm hkd)

theorem collect_pres_src (s : String) (st : SpfState) :
    ∀ (l : List (String × WithTop ℚ)) (rt : RouteTable),
      alookup ((l.foldl (collectStep s st) rt).routes) s = alookup rt.routes s := by
  intro l
  induction l with
  | nil => intro rt; rfl
  | cons kv l' ih =>
    obtain ⟨k, w⟩ := kv
    intro rt
    rw [List.foldl_cons, ih]
    by_cases hks : k = s
    · rw [collectStep_src s st rt (k, w) hks]
    · cases w with
      | top => rw [collectStep_top s st rt k hks]
      | coe q =>
        rw [collectStep_fin s st rt k q hks]
        unfold RouteTable.AddRoute
        dsimp only
        exact alookup_aset_ne _ _ _ _ (Ne.symm hks)

theorem collect_pres_top (s : String) (st : SpfState) (d : String) :
    ∀ (l : List (String × WithTop ℚ)) (rt : RouteTable), (akeys l).Nodup →
      alookup l d = some ⊤ →
      alookup ((l.foldl (collectStep s st) rt).routes) d = alookup rt.routes d := by
  intro l
  induction l with
  | nil => intro rt _ hl; cases hl
  | cons kv l' ih =>
    obtain ⟨k, w⟩ := kv
    intro rt hnd hl
    rw [alookup] at hl
    rw [List.foldl_cons]
    by_cases hkd : k = d
    · rw [if_pos hkd] at hl
      have hw : w = ⊤ := Option.some.inj hl
      subst hw
      have hl' : alookup l' d = none := by
        cases hll : alookup l' d with
        | none => rfl
        | some w' =>
          exfalso
          have hmem : d ∈ akeys l' :=
            (alookup_isSome_iff_akeys l' d).mp (by rw [hll]; rfl)
          rw [← hkd] at hmem
          exact (List.nodup_cons.mp (show (k :: akeys l').Nodup from hnd)).1 hmem
      rw [collect_pres_none s st d l' _ hl']
      by_cases hks : k = s
      · rw [collectStep_src s st rt (k, ⊤) hks]
      · rw [collectStep_top s st rt k hks]
    · rw [if_neg hkd] at hl
      rw [ih _ (List.nodup_cons.mp (show (k :: akeys l').Nodup from hnd)).2 hl]
      by_cases hks : k = s
      · rw [collectStep_src s st rt (k, w) hks]
      · cases w with
        | top => rw [collectStep_top s st rt k hks]
        | coe q =>
          rw [collectStep_fin s st rt k q hks]
          unfold RouteTable.AddRoute
          dsimp only
          exact alookup_aset_ne _ _ _ _ (Ne.symm hkd)

theorem collect_fin (s : String) (st : SpfState) (d : String) (q : ℚ) (hds : ¬ d = s) :
    ∀ (l : List (String × WithTop ℚ)) (rt : RouteTable), (akeys l).Nodup →
      alookup l d = some ((q : ℚ) : WithTop ℚ) →
      alookup ((l.foldl (collectStep s st) rt).routes) d =
        some { Destination := d, NextHop := (alookup st.nextHop d).getD "",
               Cost := q, Path := buildPath st.previous s d } := by
  intro l
  induction l with
  | nil => intro rt _ hl; cases hl
  | cons kv l' ih =>
    obtain ⟨k, w⟩ := kv
    intro rt hnd hl
    rw [alookup] at hl
    rw [List.foldl_cons]
    by_cases hkd : k = d
    · rw [if_pos hkd] at hl
      have hw : w = ((q : ℚ) : WithTop ℚ) := Option.some.inj hl
      subst hw
      have hl' : alookup l' d = none := by
        cases hll : alookup l' d with
        | none => rfl
        | some w' =>
          exfalso
          have hmem : d ∈ akeys l' :=
            (alookup_isSome_iff_akeys l' d).mp (by rw [hll]; rfl)
          rw [← hkd] at hmem
          exact (List.nodup_cons.mp (show (k :: akeys l').Nodup from hnd)).1 hmem
      rw [collect_pres_none s st d l' _ hl']
      subst hkd
      rw [collectStep_fin s st rt k q hds]
      unfold RouteTable.AddRoute
      dsimp only
      rw [alookup_aset_self]
    · rw [if_neg hkd] at hl
      exact ih _ (List.nodup_cons.mp (show (k :: akeys l').Nodup from hnd)).2 hl


theorem ComputeRoutes_fold (s : String) (t : Topology) (d : String) :
    (ComputeRoutes s t).GetRoute d =
      alookup (((spfFinalState s t).dist.foldl
        (collectStep s (spfFinalState s t)) (NewRouteTable s)).routes) d := rfl

theorem spfFinalState_inv (s : String) (t : Topology) (hnn : NonnegAdj t.adj) :
    SpfInv t.adj s (akeys (spfInit (allIDsOf t) s).dist) (spfFinalState s t) ∧
      (spfFinalState s t).pq = [] :=
  spfLoop_spec t.adj s (akeys (spfInit (allIDsOf t) s).dist) hnn
    (spfFuel (spfInit (allIDsOf t) s).dist t.adj) (spfInit (allIDsOf t) s)
    (spfInit_inv t.adj (allIDsOf t) s)
    (spfPhi_le_fuel t.adj (spfInit (allIDsOf t) s) (le_refl 1))

theorem spfFinal_closed (s : String) (t : Topology) (hnn : NonnegAdj t.adj) :
    ∀ v q, alookup (spfFinalState s t).dist v = some ((q : ℚ) : WithTop ℚ) →
      ClosedAt t.adj (spfFinalState s t).dist v q := by
  intro v q hv
  obtain ⟨hinv, hpq⟩ := spfFinalState_inv s t hnn
  rcases hinv.hpcm v q hv with hpend | ⟨hcl, -⟩
  · rw [hpq] at hpend
    cases hpend
  · exact hcl

theorem spfFinal_le_walk (s : String) (t : Topology) (hnn : NonnegAdj t.adj)
    {d : String} {c : ℚ}
    (hw : IsWalk (adjRestrict t.adj (akeys (spfInit (allIDsOf t) s).dist)) s d c) :
    distLookup (spfFinalState s t).dist d ≤ ((c : ℚ) : WithTop ℚ) := by
  obtain ⟨hinv, hpq⟩ := spfFinalState_inv s t hnn
  have h0 : distLookup (spfFinalState s t).dist s ≤ ((0 : ℚ) : WithTop ℚ) := by
    rw [distLookup_stored _ _ _ hinv.hdist_s]
  have hle := dist_le_walk t.adj (akeys (spfInit (allIDsOf t) s).dist)
    (spfFinalState s t).dist hinv.hkeys (spfFinal_closed s t hnn) hw 0 h0
  rwa [zero_add] at hle

theorem spfFinal_shortest (s : String) (t : Topology) (hnn : NonnegAdj t.adj)
    {d : String} {q : ℚ}
    (hd : alookup (spfFinalState s t).dist d = some ((q : ℚ) : WithTop ℚ)) :
    IsShortest (adjRestrict t.adj (akeys (spfInit (allIDsOf t) s).dist)) s d q := by
  obtain ⟨hinv, hpq⟩ := spfFinalState_inv s t hnn
  refine ⟨(hinv.hsound d q hd).2, ?_⟩
  intro c hc
  have hle := spfFinal_le_walk s t hnn hc
  rw [distLookup_stored _ _ _ hd] at hle
  exact_mod_cast hle

theorem spfFinal_complete (s : String) (t : Topology) (hnn : NonnegAdj t.adj)
    {d : String} (hdk : d ∈ akeys (spfInit (allIDsOf t) s).dist) {c : ℚ}
    (hw : IsWalk (adjRestrict t.adj (akeys (spfInit (allIDsOf t) s).dist)) s d c) :
    ∃ q : ℚ, alookup (spfFinalState s t).dist d = some ((q : ℚ) : WithTop ℚ) ∧ q ≤ c := by
  obtain ⟨hinv, -⟩ := spfFinalState_inv s t hnn
  have hkey : (alookup (spfFinalState s t).dist d).isSome = true := by
    rw [alookup_isSome_iff_akeys, hinv.hkeys]
    exact hdk
  exact stored_finite_of_le _ _ _ hkey (spfFinal_le_walk s t hnn hw)

theorem spfFinal_keys_nodup (s : String) (t : Topology) (hnn : NonnegAdj t.adj) :
    (akeys (spfFinalState s t).dist).Nodup := by
  obtain ⟨hinv, -⟩ := spfFinalState_inv s t hnn
  rw [hinv.hkeys]
  exact spfInit_keys_nodup (allIDsOf t) s

theorem adjRestrict_init_keys (t : Topology) (s : String) :
    ∀ x, adjRestrict t.adj (akeys (spfInit (allIDsOf t) s).dist) x =
      adjRestrict t.adj (s :: allIDsOf t) x := by
  intro x
  unfold adjRestrict
  by_cases hx : x ∈ akeys (spfInit (allIDsOf t) s).dist
  · rw [if_pos hx, if_pos (List.mem_cons.mpr ((spfInit_mem_keys _ _ _).mp hx))]
  · rw [if_neg hx,
      if_neg (fun hm => hx ((spfInit_mem_keys _ _ _).mpr (List.mem_cons.mp hm)))]

theorem IsShortest_congr {adj adj' : String → List (String × ℚ)}
    (h : ∀ x, adj x = adj' x) {s d : String} {q : ℚ}
    (hs : IsShortest adj s d q) : IsShortest adj' s d q :=
  ⟨IsWalk_congr h hs.1, fun c hc => hs.2 c (IsWalk_congr (fun x => (h x).symm) hc)⟩

theorem alookup_mem {β : Type} (m : List (String × β)) (k : String) (v : β)
    (h : alookup m k = some v) : (k, v) ∈ m := by
  induction m with
  | nil => cases h
  | cons kv r ih =>
    obtain ⟨k', w⟩ := kv
    rw [alookup] at h
    by_cases hk : k' = k
    · rw [if_pos hk] at h
      subst hk
      rw [Option.some.inj h]
      exact List.mem_cons_self _ _
    · rw [if_neg hk] at h
      exact List.mem_cons_of_mem _ (ih h)

theorem nonnegAdj_of_costs {t : Topology} (h : t.NonnegCosts) : NonnegAdj t.adj := by
  intro u p hp
  unfold Topology.adj Topology.GetNeighbors at hp
  cases hrow : alookup t.edges u with
  | none =>
    rw [hrow] at hp
    exact absurd hp (List.not_mem_nil p)
  | some row =>
    rw [hrow] at hp
    exact h (u, row) (alookup_mem _ _ _ hrow) p hp


/-! Claim C1. -/

/-- C1 (counterexample): the claim says every known node reachable from
the source appears in the table, but the calculator never expands the
outgoing edges of a node that has no `NodeInfo` record (its absent
tentative distance reads as the Go zero value `0.0`, which blocks every
non-negative relaxation).  In `tUx` the known node B is reachable from A
at cost 2 through the unknown relay X, all costs are non-negative, yet
`ComputeRoutes "A"` returns no route for B. -/
theorem claim_C1_counterexample :
    tUx.NonnegCosts ∧ "B" ∈ allIDsOf tUx ∧ ¬ ("B" : String) = "A" ∧
    IsWalk tUx.adj "A" "B" 2 ∧
    (ComputeRoutes "A" tUx).GetRoute "B" = none := by
  refine ⟨show ∀ r ∈ tUx.edges, ∀ p ∈ r.2, (0 : ℚ) ≤ p.2 by decide, by decide, by decide,
    ?_, ?_⟩
  · have h1 : (("X" : String), (1 : ℚ)) ∈ tUx.adj "A" := by decide
    have h2 : (("B" : String), (1 : ℚ)) ∈ tUx.adj "X" := by decide
    have hw := IsWalk.cons h1 (IsWalk.cons h2 (IsWalk.nil "B"))
    norm_num at hw
    exact hw
  · norm_num +decide [ComputeRoutes, collectRoutes, spfInit, spfFuel, spfLoop, popMin,
      relaxAll, relaxStep, distLookup, alookup, aset, allIDsOf, Topology.GetAllNodes,
      Topology.adj, Topology.GetNeighbors, tUx, tEmpty, Topology.AddNode,
      Topology.UpdateLink, ensureRow, rowModify, niEx, RouteTable.GetRoute,
      RouteTable.AddRoute, NewRouteTable, buildPath, buildPathAux, pqMinW]

/-- C1, amended: with non-negative stored costs, the `{destination,
cost}` pairs of `ComputeRoutes s t` are exactly the Dijkstra
shortest-path distances from `s` in the graph restricted to the source
and the known nodes (nodes without a `NodeInfo` record never expand
their outgoing edges): every returned route's cost is the minimal
restricted-walk cost to its destination, and a destination has a route
exactly when it is known, differs from the source, and is reachable
in the restricted graph. -/
theorem claim_C1_amended (t : Topology) (s : String) (hnn : t.NonnegCosts) (d : String) :
    (∀ r, (ComputeRoutes s t).GetRoute d = some r →
      IsShortest (adjRestrict t.adj (s :: allIDsOf t)) s d r.Cost) ∧
    ((∃ r, (ComputeRoutes s t).GetRoute d = some r) ↔
      (¬ d = s ∧ d ∈ allIDsOf t ∧
        ReachableW (adjRestrict t.adj (s :: allIDsOf t)) s d)) := by
  have hA : NonnegAdj t.adj := nonnegAdj_of_costs hnn
  obtain ⟨hinv, hpq⟩ := spfFinalState_inv s t hA
  have hnd : (akeys (spfFinalState s t).dist).Nodup := spfFinal_keys_nodup s t hA
  have hcongr := adjRestrict_init_keys t s
  by_cases hds : d = s
  · subst hds
    have hnone : (ComputeRoutes d t).GetRoute d = none := by
      rw [ComputeRoutes_fold, collect_pres_src]
      rfl
    refine ⟨?_, ?_, ?_⟩
    · intro r hr
      rw [hnone] at hr
      cases hr
    · rintro ⟨r, hr⟩
      rw [hnone] at hr
      cases hr
    · rintro ⟨hne, -, -⟩
      exact absurd rfl hne
  · cases hd : alookup (spfFinalState s t).dist d with
    | none =>
      have hnone : (ComputeRoutes s t).GetRoute d = none := by
        rw [ComputeRoutes_fold, collect_pres_none s _ d _ _ hd]
        rfl
      have hnk : ¬ d ∈ allIDsOf t := by
        intro hk
        have hmem : d ∈ akeys (spfFinalState s t).dist := by
          rw [hinv.hkeys]
          exact (spfInit_mem_keys _ _ _).mpr (Or.inr hk)
        rw [← alookup_isSome_iff_akeys, hd] at hmem
        cases hmem
      refine ⟨?_, ?_, ?_⟩
      · intro r hr
        rw [hnone] at hr
        cases hr
      · rintro ⟨r, hr⟩
        rw [hnone] at hr
        cases hr
      · rintro ⟨-, hk, -⟩
        exact absurd hk hnk
    | some w =>
      cases w with
      | top =>
        have hnone : (ComputeRoutes s t).GetRoute d = none := by
          rw [ComputeRoutes_fold, collect_pres_top s _ d _ _ hnd hd]
          rfl
        have hnr : ¬ ReachableW (adjRestrict t.adj (s :: allIDsOf t)) s d := by
          rintro ⟨c, hw⟩
          have hw' : IsWalk (adjRestrict t.adj (akeys (spfInit (allIDsOf t) s).dist))
              s d c := IsWalk_congr (fun x => (hcongr x).symm) hw
          have hle := spfFinal_le_walk s t hA hw'
          rw [distLookup_stored _ _ _ hd] at hle
          exact absurd hle (by simp)
        refine ⟨?_, ?_, ?_⟩
        · intro r hr
          rw [hnone] at hr
          cases hr
        · rintro ⟨r, hr⟩
          rw [hnone] at hr
          cases hr
        · rintro ⟨-, -, hr⟩
          exact absurd hr hnr
      | coe q =>
        have hroute : (ComputeRoutes s t).GetRoute d =
            some { Destination := d,
                   NextHop := (alookup (spfFinalState s t).nextHop d).getD "",
                   Cost := q, Path := buildPath (spfFinalState s t).previous s d } := by
          rw [ComputeRoutes_fold]
          exact collect_fin s _ d q hds _ _ hnd hd
        have hshort : IsShortest (adjRestrict t.adj (s :: allIDsOf t)) s d q :=
          IsShortest_congr hcongr (spfFinal_shortest s t hA hd)
        refine ⟨?_, ?_, ?_⟩
        · intro r hr
          rw [hroute] at hr
          obtain rfl : r =
              { Destination := d,
                NextHop := (alookup (spfFinalState s t).nextHop d).getD "",
                Cost := q, Path := buildPath (spfFinalState s t).previous s d } :=
            (Option.some.inj hr).symm
          exact hshort
        · intro hex
          have hmem : d ∈ akeys (spfFinalState s t).dist :=
            (alookup_isSome_iff_akeys _ _).mp (by rw [hd]; rfl)
          rw [hinv.hkeys] at hmem
          rcases (spfInit_mem_keys _ _ _).mp hmem with h1 | h2
          · exact absurd h1 hds
          · exact ⟨hds, h2, q, hshort.1⟩
        · intro hrhs
          exact ⟨_, hroute⟩

/-- Witness for the amended C1: the theorem applied to the triangle
example at source A and destination C, its cost hypothesis discharged by
computation. -/
theorem claim_C1_witness :
    tEx.NonnegCosts ∧
    ((∀ r, (ComputeRoutes "A" tEx).GetRoute "C" = some r →
        IsShortest (adjRestrict tEx.adj ("A" :: allIDsOf tEx)) "A" "C" r.Cost) ∧
      ((∃ r, (ComputeRoutes "A" tEx).GetRoute "C" = some r) ↔
        (¬ ("C" : String) = "A" ∧ "C" ∈ allIDsOf tEx ∧
          ReachableW (adjRestrict tEx.adj ("A" :: allIDsOf tEx)) "A" "C"))) :=
  ⟨show ∀ r ∈ tEx.edges, ∀ p ∈ r.2, (0 : ℚ) ≤ p.2 by decide,
    claim_C1_amended tEx "A" (show ∀ r ∈ tEx.edges, ∀ p ∈ r.2, (0 : ℚ) ≤ p.2 by decide) "C"⟩


/-! Claims C2 and C5. -/

theorem GetRoute_some_elim (s : String) (t : Topology) (hnn : NonnegAdj t.adj)
    (d : String) (r : Route) (hr : (ComputeRoutes s t).GetRoute d = some r) :
    ¬ d = s ∧ ∃ q : ℚ, alookup (spfFinalState s t).dist d = some ((q : ℚ) : WithTop ℚ) ∧
      r = { Destination := d,
            NextHop := (alookup (spfFinalState s t).nextHop d).getD "",
            Cost := q, Path := buildPath (spfFinalState s t).previous s d } := by
  have hnd := spfFinal_keys_nodup s t hnn
  by_cases hds : d = s
  · subst hds
    rw [ComputeRoutes_fold, collect_pres_src] at hr
    exact absurd (show (none : Option Route) = some r from hr) (by simp)
  · cases hd : alookup (spfFinalState s t).dist d with
    | none =>
      rw [ComputeRoutes_fold, collect_pres_none s _ d _ _ hd] at hr
      exact absurd (show (none : Option Route) = some r from hr) (by simp)
    | some w =>
      cases w with
      | top =>
        rw [ComputeRoutes_fold, collect_pres_top s _ d _ _ hnd hd] at hr
        exact absurd (show (none : Option Route) = some r from hr) (by simp)
      | coe q =>
        have hroute := collect_fin s (spfFinalState s t) d q hds
          (spfFinalState s t).dist (NewRouteTable s) hnd hd
        rw [ComputeRoutes_fold, hroute] at hr
        exact ⟨hds, q, rfl, (Option.some.inj hr).symm⟩

/-- C2 (counterexample): the claim says the next hop's own shortest-path
cost to the destination equals the table cost minus the source-to-hop
edge cost.  Over the full stored graph this fails when the cheap
continuation relays through an unknown node: in `tC2` the route to C has
next hop B and cost 20, the edge A→B costs 10, but B reaches C at cost 2
(through the unknown relay X), so B's shortest-path cost to C is at most
2 and in particular is not 20 − 10. -/
theorem claim_C2_counterexample :
    tC2.NonnegCosts ∧
    (ComputeRoutes "A" tC2).GetRoute "C" =
      some { Destination := "C", NextHop := "B", Cost := 20, Path := ["A", "B", "C"] } ∧
    tC2.GetCost "A" "B" = some 10 ∧
    IsWalk tC2.adj "B" "C" 2 ∧
    (∀ q, IsShortest tC2.adj "B" "C" q → ¬ q = 20 - 10) := by
  have h1 : (("X" : String), (1 : ℚ)) ∈ tC2.adj "B" := by decide
  have h2 : (("C" : String), (1 : ℚ)) ∈ tC2.adj "X" := by decide
  have hw := IsWalk.cons h1 (IsWalk.cons h2 (IsWalk.nil "C"))
  norm_num at hw
  refine ⟨show ∀ r ∈ tC2.edges, ∀ p ∈ r.2, (0 : ℚ) ≤ p.2 by decide, ?_, by decide, hw, ?_⟩
  · norm_num +decide [ComputeRoutes, collectRoutes, spfInit, spfFuel, spfLoop, popMin,
      relaxAll, relaxStep, distLookup, alookup, aset, allIDsOf, Topology.GetAllNodes,
      Topology.adj, Topology.GetNeighbors, tC2, tEmpty, Topology.AddNode,
      Topology.UpdateLink, ensureRow, rowModify, niEx, RouteTable.GetRoute,
      RouteTable.AddRoute, NewRouteTable, buildPath, buildPathAux, pqMinW]
  · intro q hq hq10
    have hle := hq.2 2 hw
    rw [hq10] at hle
    norm_num at hle

/-- C2, amended: for every destination in the computed table the next
hop is a direct neighbor of the source (its edge cost is readable by
`GetCost`), and following it is cost-consistent over the restricted
graph of C1's amendment: the next hop's shortest-path cost to the
destination there equals the table cost minus the source-to-hop edge
cost.  The source's neighbor row is assumed to have no duplicate keys
(every row the mutators build is such). -/
theorem claim_C2_amended (t : Topology) (s : String) (hnn : t.NonnegCosts)
    (hrow : (akeys (t.GetNeighbors s)).Nodup) (d : String) (r : Route)
    (hr : (ComputeRoutes s t).GetRoute d = some r) :
    ∃ c0, t.GetCost s r.NextHop = some c0 ∧
      IsShortest (adjRestrict t.adj (s :: allIDsOf t)) r.NextHop d (r.Cost - c0) := by
  have hA : NonnegAdj t.adj := nonnegAdj_of_costs hnn
  obtain ⟨hinv, hpq⟩ := spfFinalState_inv s t hA
  have hcongr := adjRestrict_init_keys t s
  obtain ⟨hds, q, hd, rfl⟩ := GetRoute_some_elim s t hA d r hr
  obtain ⟨n, c0, cw, hn, hedge, hwalk, hq⟩ := hinv.hnh d q hds hd
  have hshort : IsShortest (adjRestrict t.adj (s :: allIDsOf t)) s d q :=
    IsShortest_congr hcongr (spfFinal_shortest s t hA hd)
  have hGC : t.GetCost s n = some c0 := by
    unfold Topology.GetCost
    cases hrowE : alookup t.edges s with
    | none =>
      exfalso
      have hnil : t.GetNeighbors s = [] := by
        unfold Topology.GetNeighbors
        rw [hrowE]
        rfl
      have hedge2 : (n, c0) ∈ t.GetNeighbors s := hedge
      rw [hnil] at hedge2
      cases hedge2
    | some row =>
      have hrows : t.GetNeighbors s = row := by
        unfold Topology.GetNeighbors
        rw [hrowE]
        rfl
      rw [Option.some_bind]
      apply mem_alookup_of_nodup
      · rw [← hrows]
        exact hrow
      · have hedge2 : (n, c0) ∈ t.GetNeighbors s := hedge
        rw [hrows] at hedge2
        exact hedge2
  have hNH :
      ({ Destination := d,
         NextHop := (alookup (spfFinalState s t).nextHop d).getD "",
         Cost := q,
         Path := buildPath (spfFinalState s t).previous s d } : Route).NextHop = n := by
    dsimp only
    rw [hn]
    rfl
  rw [hNH]
  dsimp only
  refine ⟨c0, hGC, ?_, ?_⟩
  · have hc : q - c0 = cw := by
      rw [hq]
      ring
    rw [hc]
    exact IsWalk_congr hcongr hwalk
  · intro cx hcx
    have hedge2 : (n, c0) ∈ adjRestrict t.adj (s :: allIDsOf t) s := by
      rw [adjRestrict_eq_of_mem (List.mem_cons_self _ _)]
      exact hedge
    have hle := hshort.2 (c0 + cx) (IsWalk.cons hedge2 hcx)
    linarith

/-- Witness for the amended C2: the triangle example at source A and
destination C — the next hop B is a neighbor of A at edge cost 1, and
B's restricted shortest-path cost to C is 2 − 1 = 1. -/
theorem claim_C2_witness :
    tEx.NonnegCosts ∧ (akeys (tEx.GetNeighbors "A")).Nodup ∧
    (ComputeRoutes "A" tEx).GetRoute "C" =
      some { Destination := "C", NextHop := "B", Cost := 2, Path := ["A", "B", "C"] } ∧
    ∃ c0, tEx.GetCost "A"
        ({ Destination := "C", NextHop := "B", Cost := 2,
           Path := ["A", "B", "C"] } : Route).NextHop = some c0 ∧
      IsShortest (adjRestrict tEx.adj ("A" :: allIDsOf tEx))
        ({ Destination := "C", NextHop := "B", Cost := 2,
           Path := ["A", "B", "C"] } : Route).NextHop "C"
        (({ Destination := "C", NextHop := "B", Cost := 2,
            Path := ["A", "B", "C"] } : Route).Cost - c0) := by
  have hroute : (ComputeRoutes "A" tEx).GetRoute "C" =
      some { Destination := "C", NextHop := "B", Cost := 2, Path := ["A", "B", "C"] } := by
    norm_num +decide [ComputeRoutes, collectRoutes, spfInit, spfFuel, spfLoop, popMin,
      relaxAll, relaxStep, distLookup, alookup, aset, allIDsOf, Topology.GetAllNodes,
      Topology.adj, Topology.GetNeighbors, tEx, tEmpty, Topology.AddNode,
      Topology.UpdateLink, ensureRow, rowModify, niEx, RouteTable.GetRoute,
      RouteTable.AddRoute, NewRouteTable, buildPath, buildPathAux, pqMinW]
  exact ⟨show ∀ r ∈ tEx.edges, ∀ p ∈ r.2, (0 : ℚ) ≤ p.2 by decide, by decide, hroute,
    claim_C2_amended tEx "A" (show ∀ r ∈ tEx.edges, ∀ p ∈ r.2, (0 : ℚ) ≤ p.2 by decide)
      (by decide) "C" _ hroute⟩

/-- C5: `SendPacket` mints a packet whose source is the local node and
whose `visited_nodes` is the singleton `[self]`; the peer's
`handle_incoming` appends its own id, so on a one-hop route where
`get_route` succeeds the delivering peer observes `visited_nodes`
`[source, peer]` — the source exactly once and the peer exactly once —
and delivery is recorded exactly when the packet's destination equals
the handling node's id (in particular it succeeds here). -/
theorem claim_C5 (t : Topology) (s d : String) (payload : List UInt8) (nanos : Int)
    (hnn : t.NonnegCosts) (r : Route)
    (hroute : (ComputeRoutes s t).GetRoute d = some r) :
    (fmSendPacketMk s d payload nanos).Source = s ∧
    (fmSendPacketMk s d payload nanos).VisitedNodes = [s] ∧
    (handleIncomingLocal d (fmSendPacketMk s d payload nanos)).1.VisitedNodes = [s, d] ∧
    List.count s (handleIncomingLocal d (fmSendPacketMk s d payload nanos)).1.VisitedNodes
      = 1 ∧
    List.count d (handleIncomingLocal d (fmSendPacketMk s d payload nanos)).1.VisitedNodes
      = 1 ∧
    (handleIncomingLocal d (fmSendPacketMk s d payload nanos)).2 = true ∧
    (∀ (self : String) (p : Packet),
      (handleIncomingLocal self p).2 = true ↔ p.Destination = self) := by
  have hds : ¬ d = s :=
    (GetRoute_some_elim s t (nonnegAdj_of_costs hnn) d r hroute).1
  have hsd : ¬ s = d := fun h => hds h.symm
  refine ⟨rfl, rfl, rfl, ?_, ?_, ?_, ?_⟩
  · show List.count s [s, d] = 1
    simp [List.count_cons, beq_iff_eq, hds, hsd]
  · show List.count d [s, d] = 1
    simp [List.count_cons, beq_iff_eq, hds, hsd]
  · simp [handleIncomingLocal, fmSendPacketMk]
  · intro self p
    simp [handleIncomingLocal]

/-- Witness for C5: the triangle example, sending from A to B (a
destination with a route), with a concrete payload and timestamp. -/
theorem claim_C5_witness :
    tEx.NonnegCosts ∧
    (ComputeRoutes "A" tEx).GetRoute "B" =
      some { Destination := "B", NextHop := "B", Cost := 1, Path := ["A", "B"] } ∧
    ((fmSendPacketMk "A" "B" [] 7).Source = "A" ∧
      (fmSendPacketMk "A" "B" [] 7).VisitedNodes = ["A"] ∧
      (handleIncomingLocal "B" (fmSendPacketMk "A" "B" [] 7)).1.VisitedNodes = ["A", "B"] ∧
      List.count "A" (handleIncomingLocal "B" (fmSendPacketMk "A" "B" [] 7)).1.VisitedNodes
        = 1 ∧
      List.count "B" (handleIncomingLocal "B" (fmSendPacketMk "A" "B" [] 7)).1.VisitedNodes
        = 1 ∧
      (handleIncomingLocal "B" (fmSendPacketMk "A" "B" [] 7)).2 = true ∧
      (∀ (self : String) (p : Packet),
        (handleIncomingLocal self p).2 = true ↔ p.Destination = self)) := by
  have hroute : (ComputeRoutes "A" tEx).GetRoute "B" =
      some { Destination := "B", NextHop := "B", Cost := 1, Path := ["A", "B"] } := by
    norm_num +decide [ComputeRoutes, collectRoutes, spfInit, spfFuel, spfLoop, popMin,
      relaxAll, relaxStep, distLookup, alookup, aset, allIDsOf, Topology.GetAllNodes,
      Topology.adj, Topology.GetNeighbors, tEx, tEmpty, Topology.AddNode,
      Topology.UpdateLink, ensureRow, rowModify, niEx, RouteTable.GetRoute,
      RouteTable.AddRoute, NewRouteTable, buildPath, buildPathAux, pqMinW]
  exact ⟨show ∀ r ∈ tEx.edges, ∀ p ∈ r.2, (0 : ℚ) ≤ p.2 by decide, hroute,
    claim_C5 tEx "A" "B" [] 7
      (show ∀ r ∈ tEx.edges, ∀ p ∈ r.2, (0 : ℚ) ≤ p.2 by decide) _ hroute⟩


/-! Result collection of the older calculator. -/

theorem collectStepOld_src (s : String) (st : SpfStateOld) (rt : RouteTableOld)
    (kv : String × WithTop ℚ) (h : kv.1 = s) : collectStepOld s st rt kv = rt := by
  unfold collectStepOld
  rw [if_pos h]

theorem collectStepOld_top (s : String) (st : SpfStateOld) (rt : RouteTableOld)
    (k : String) (h : ¬ k = s) : collectStepOld s st rt (k, ⊤) = rt := by
  unfold collectStepOld
  rw [if_neg h]

theorem collectStepOld_fin (s : String) (st : SpfStateOld) (rt : RouteTableOld)
    (k : String) (q : ℚ) (h : ¬ k = s) :
    collectStepOld s st rt (k, ((q : ℚ) : WithTop ℚ)) =
      rt.AddRoute
        { Destination := k, NextHop := (alookup st.nextHop k).getD "", Cost := q } := by
  unfold collectStepOld
  rw [if_neg h]

theorem collect_old_pres_none (s : String) (st : SpfStateOld) (d : String) :
    ∀ (l : List (String × WithTop ℚ)) (rt : RouteTableOld), alookup l d = none →
      alookup ((l.foldl (collectStepOld s st) rt).routes) d = alookup rt.routes d := by
  intro l
  induction l with
  | nil => intro rt _; rfl
  | cons kv l' ih =>
    obtain ⟨k, w⟩ := kv
    intro rt hl
    rw [alookup] at hl
    by_cases hkd : k = d
    · rw [if_pos hkd] at hl
      cases hl
    · rw [if_neg hkd] at hl
      rw [List.foldl_cons, ih _ hl]
      by_cases hks : k = s
      · rw [collectStepOld_src s st rt (k, w) hks]
      · cases w with
        | top => rw [collectStepOld_top s st rt k hks]
        | coe q =>
          rw [collectStepOld_fin s st rt k q hks]
          unfold RouteTableOld.AddRoute
          dsimp only
          exact alookup_aset_ne _ _ _ _ (Ne.symm hkd)

theorem collect_old_pres_src (s : String) (st : SpfStateOld) :
    ∀ (l : List (String × WithTop ℚ)) (rt : RouteTableOld),
      alookup ((l.foldl (collectStepOld s st) rt).routes) s = alookup rt.routes s := by
  intro l
  induction l with
  | nil => intro rt; rfl
  | cons kv l' ih =>
    obtain ⟨k, w⟩ := kv
    intro rt
    rw [List.foldl_cons, ih]
    by_cases hks : k = s
    · rw [collectStepOld_src s st rt (k, w) hks]
    · cases w with
      | top => rw [collectStepOld_top s st rt k hks]
      | coe q =>
        rw [collectStepOld_fin s st rt k q hks]
        unfold RouteTableOld.AddRoute
        dsimp only
        exact alookup_aset_ne _ _ _ _ (Ne.symm hks)

theorem collect_old_pres_top (s : String) (st : SpfStateOld) (d : String) :
    ∀ (l : List (String × WithTop ℚ)) (rt : RouteTableOld), (akeys l).Nodup →
      alookup l d = some ⊤ →
      alookup ((l.foldl (collectStepOld s st) rt).routes) d = alookup rt.routes d := by
  intro l
  induction l with
  | nil => intro rt _ hl; cases hl
  | cons kv l' ih =>
    obtain ⟨k, w⟩ := kv
    intro rt hnd hl
    rw [alookup] at hl
    rw [List.foldl_cons]
    by_cases hkd : k = d
    · rw [if_pos hkd] at hl
      have hw : w = ⊤ := Option.some.inj hl
      subst hw
      have hl' : alookup l' d = none := by
        cases hll : alookup l' d with
        | none => rfl
        | some w' =>
          exfalso
          have hmem : d ∈ akeys l' :=
            (alookup_isSome_iff_akeys l' d).mp (by rw [hll]; rfl)
          rw [← hkd] at hmem
          exact (List.nodup_cons.mp (show (k :: akeys l').Nodup from hnd)).1 hmem
      rw [collect_old_pres_none s st d l' _ hl']
      by_cases hks : k = s
      · rw [collectStepOld_src s st rt (k, ⊤) hks]
      · rw [collectStepOld_top s st rt k hks]
    · rw [if_neg hkd] at hl
      rw [ih _ (List.nodup_cons.mp (show (k :: akeys l').Nodup from hnd)).2 hl]
      by_cases hks : k = s
      · rw [collectStepOld_src s st rt (k, w) hks]
      · cases w with
        | top => rw [collectStepOld_top s st rt k hks]
        | coe q =>
          rw [collectStepOld_fin s st rt k q hks]
          unfold RouteTableOld.AddRoute
          dsimp only
          exact alookup_aset_ne _ _ _ _ (Ne.symm hkd)

theorem collect_old_fin (s : String) (st : SpfStateOld) (d : String) (q : ℚ)
    (hds : ¬ d = s) :
    ∀ (l : List (String × WithTop ℚ)) (rt : RouteTableOld), (akeys l).Nodup →
      alookup l d = some ((q : ℚ) : WithTop ℚ) →
      alookup ((l.foldl (collectStepOld s st) rt).routes) d =
        some { Destination := d, NextHop := (alookup st.nextHop d).getD "",
               Cost := q } := by
  intro l
  induction l with
  | nil => intro rt _ hl; cases hl
  | cons kv l' ih =>
    obtain ⟨k, w⟩ := kv
    intro rt hnd hl
    rw [alookup] at hl
    rw [List.foldl_cons]
    by_cases hkd : k = d
    · rw [if_pos hkd] at hl
      have hw : w = ((q : ℚ) : WithTop ℚ) := Option.some.inj hl
      subst hw
      have hl' : alookup l' d = none := by
        cases hll : alookup l' d with
        | none => rfl
        | some w' =>
          exfalso
          have hmem : d ∈ akeys l' :=
            (alookup_isSome_iff_akeys l' d).mp (by rw [hll]; rfl)
          rw [← hkd] at hmem
          exact (List.nodup_cons.mp (show (k :: akeys l').Nodup from hnd)).1 hmem
      rw [collect_old_pres_none s st d l' _ hl']
      subst hkd
      rw [collectStepOld_fin s st rt k q hds]
      unfold RouteTableOld.AddRoute
      dsimp only
      rw [alookup_aset_self]
    · rw [if_neg hkd] at hl
      exact ih _ (List.nodup_cons.mp (show (k :: akeys l').Nodup from hnd)).2 hl


/-! Relaxation of the older calculator. -/

theorem relaxStepOld_inv (adj : String → List (String × ℚ)) (K : List String)
    (s u : String) (p : ℚ) (st : SpfStateOld) (wc : String × ℚ)
    (hnn : NonnegAdj adj) (hp0 : 0 ≤ p) (hwc : wc ∈ adj u)
    (hinv : RelaxInvOld adj s K u p st) :
    RelaxInvOld adj s K u p (relaxStepOld s u p st wc) ∧
    (∀ x, distLookup (relaxStepOld s u p st wc).dist x ≤ distLookup st.dist x) ∧
    distLookup (relaxStepOld s u p st wc).dist wc.1 ≤ ((p + wc.2 : ℚ) : WithTop ℚ) ∧
    (relaxStepOld s u p st wc).pq.length ≤ st.pq.length + 1 ∧
    (relaxStepOld s u p st wc).visited = st.visited := by
  have hwc0 : 0 ≤ wc.2 := hnn u wc hwc
  unfold relaxStepOld
  dsimp only
  by_cases hrel : ((p + wc.2 : ℚ) : WithTop ℚ) < distLookup st.dist wc.1
  case neg =>
    rw [if_neg hrel]
    exact ⟨hinv, fun x => le_refl _, not_lt.mp hrel, Nat.le_succ _, rfl⟩
  case pos =>
    rw [if_pos hrel]
    have hkey : (alookup st.dist wc.1).isSome = true := by
      cases hl : alookup st.dist wc.1 with
      | none =>
        exfalso
        rw [distLookup, hl] at hrel
        exact absurd (WithTop.coe_lt_coe.mp hrel) (by linarith)
      | some w => rfl
    have hns : ¬ wc.1 = s := by
      intro hq
      rw [hq, distLookup_stored st.dist s _ hinv.hdist_s] at hrel
      exact absurd (WithTop.coe_lt_coe.mp hrel) (by linarith)
    have hnu : ¬ wc.1 = u := by
      intro hq
      rw [hq, distLookup_stored st.dist u _ hinv.hu] at hrel
      exact absurd (WithTop.coe_lt_coe.mp hrel) (by linarith)
    have hnvis : ¬ wc.1 ∈ st.visited := by
      intro hq
      obtain ⟨qv, hqv, -, -, hqvp⟩ := hinv.hvis' wc.1 hq hnu
      rw [distLookup_stored st.dist wc.1 _ hqv] at hrel
      have := WithTop.coe_lt_coe.mp hrel
      linarith
    have huK : u ∈ K := by
      rw [← hinv.hkeys]
      exact (alookup_isSome_iff_akeys _ _).mp (by rw [hinv.hu]; rfl)
    have hadjRu : adjRestrict adj K u = adj u := adjRestrict_eq_of_mem huK
    have hptle : ∀ x, distLookup (aset st.dist wc.1 ((p + wc.2 : ℚ) : WithTop ℚ)) x ≤
        distLookup st.dist x :=
      distLookup_aset_le st.dist wc.1 _ (le_of_lt hrel)
    have hkeys' : akeys (aset st.dist wc.1 ((p + wc.2 : ℚ) : WithTop ℚ)) = K := by
      rw [akeys_aset_isSome _ _ _ hkey, hinv.hkeys]
    have hsome_iff : ∀ x,
        (alookup (aset st.dist wc.1 ((p + wc.2 : ℚ) : WithTop ℚ)) x).isSome
          = (alookup st.dist x).isSome := by
      intro x
      by_cases hx : x = wc.1
      · subst hx
        rw [alookup_aset_self, hkey]
        rfl
      · rw [alookup_aset_ne _ _ _ _ hx]
    refine ⟨⟨hkeys', ?_, ?_, ?_, ?_, hinv.hvisU, ?_, ?_, ?_⟩, hptle, ?_, ?_, rfl⟩
    · rw [alookup_aset_ne _ _ _ _ (Ne.symm hns)]
      exact hinv.hdist_s
    · intro v q hv
      by_cases hx : v = wc.1
      · subst hx
        rw [alookup_aset_self] at hv
        have hq : q = p + wc.2 := by
          have := Option.some.inj hv
          exact_mod_cast this.symm
        subst hq
        obtain ⟨hp0u, hwalk⟩ := hinv.hsound u p hinv.hu
        exact ⟨by linarith, hwalk.snoc (by rw [hadjRu]; exact hwc)⟩
      · rw [alookup_aset_ne _ _ _ _ hx] at hv
        exact hinv.hsound v q hv
    · intro e he
      rcases List.mem_append.mp he with he | he
      · obtain ⟨h1, h2, h3⟩ := hinv.hentries e he
        exact ⟨h1, by rw [hsome_iff]; exact h2, le_trans (hptle e.1) h3⟩
      · rcases List.mem_singleton.mp he with rfl
        refine ⟨by dsimp only; linarith, ?_, ?_⟩
        · dsimp only
          rw [alookup_aset_self]
          rfl
        · dsimp only
          rw [distLookup, alookup_aset_self]
          rfl
    · rw [alookup_aset_ne _ _ _ _ (Ne.symm hnu)]
      exact hinv.hu
    · intro v hvvis hvu
      obtain ⟨q, hstore, hcl, hM, hqp⟩ := hinv.hvis' v hvvis hvu
      have hx : ¬ v = wc.1 := fun hx => hnvis (hx ▸ hvvis)
      refine ⟨q, ?_, ClosedAt_mono hptle hcl, ?_, hqp⟩
      · rw [alookup_aset_ne _ _ _ _ hx]
        exact hstore
      · apply le_pqMinW
        intro x hx'
        rcases List.mem_append.mp hx' with hx' | hx'
        · exact le_trans hM (pqMinW_le_of_mem _ _ hx')
        · rcases List.mem_singleton.mp hx' with rfl
          exact WithTop.coe_le_coe.mpr (by dsimp only; linarith)
    · intro v q hv hvnvis
      by_cases hx : v = wc.1
      · subst hx
        rw [alookup_aset_self] at hv
        have hq : q = p + wc.2 := by
          have := Option.some.inj hv
          exact_mod_cast this.symm
        subst hq
        exact List.mem_append.mpr (Or.inr (List.mem_singleton.mpr rfl))
      · rw [alookup_aset_ne _ _ _ _ hx] at hv
        exact List.mem_append.mpr (Or.inl (hinv.hpend' v q hv hvnvis))
    · apply le_pqMinW
      intro x hx
      rcases List.mem_append.mp hx with hx | hx
      · exact le_trans hinv.hminp (pqMinW_le_of_mem _ _ hx)
      · rcases List.mem_singleton.mp hx with rfl
        exact WithTop.coe_le_coe.mpr (by dsimp only; linarith)
    · rw [distLookup, alookup_aset_self]
      exact le_refl _
    · simp

theorem relaxGoOld (adj : String → List (String × ℚ)) (K : List String) (s u : String)
    (p : ℚ) (hnn : NonnegAdj adj) (hp0 : 0 ≤ p) :
    ∀ (todo : List (String × ℚ)) (st : SpfStateOld), (∀ wc ∈ todo, wc ∈ adj u) →
      RelaxInvOld adj s K u p st →
      RelaxInvOld adj s K u p (todo.foldl (relaxStepOld s u p) st) ∧
      (∀ x, distLookup (todo.foldl (relaxStepOld s u p) st).dist x ≤
        distLookup st.dist x) ∧
      (∀ wc ∈ todo, distLookup (todo.foldl (relaxStepOld s u p) st).dist wc.1 ≤
        ((p + wc.2 : ℚ) : WithTop ℚ)) ∧
      (todo.foldl (relaxStepOld s u p) st).pq.length ≤ st.pq.length + todo.length ∧
      (todo.foldl (relaxStepOld s u p) st).visited = st.visited := by
  intro todo
  induction todo with
  | nil =>
    intro st _ hinv
    exact ⟨hinv, fun x => le_refl _, fun wc hwc => absurd hwc (List.not_mem_nil wc),
      Nat.le_add_right _ _, rfl⟩
  | cons wc todo ih =>
    intro st htodo hinv
    obtain ⟨hinv1, hpt1, hwc1, hlen1, hvis1⟩ :=
      relaxStepOld_inv adj K s u p st wc hnn hp0 (htodo wc (List.mem_cons_self _ _)) hinv
    obtain ⟨hinvF, hptF, hdoneF, hlenF, hvisF⟩ :=
      ih (relaxStepOld s u p st wc) (fun w hw => htodo w (List.mem_cons_of_mem _ hw)) hinv1
    rw [List.foldl_cons]
    refine ⟨hinvF, fun x => le_trans (hptF x) (hpt1 x), ?_, ?_, hvisF.trans hvis1⟩
    · intro w hw
      rcases List.mem_cons.mp hw with rfl | hw
      · exact le_trans (hptF w.1) hwc1
      · exact hdoneF w hw
    · rw [List.length_cons]
      omega


/-! Dequeue loop of the older calculator. -/

theorem spf_step_old_stale (adj : String → List (String × ℚ)) (K : List String)
    (s : String) (st : SpfStateOld) (e : String × ℚ) (rest : List (String × ℚ))
    (hinv : OInv adj s K st) (hpop : popMin st.pq = some (e, rest))
    (hstale : e.1 ∈ st.visited) :
    OInv adj s K { st with pq := rest } := by
  have hrestmin : ∀ w : WithTop ℚ, w ≤ pqMinW st.pq → w ≤ pqMinW rest := by
    intro w hw
    apply le_pqMinW
    intro x hx
    exact le_trans hw (pqMinW_le_of_mem _ _ (popMin_rest_mem _ _ _ hpop x hx))
  refine ⟨hinv.hkeys, hinv.hdist_s, hinv.hsound, ?_, ?_, ?_⟩
  · intro x hx
    exact hinv.hentries x (popMin_rest_mem _ _ _ hpop x hx)
  · intro v hv
    obtain ⟨q, hq, hcl, hM⟩ := hinv.hvis v hv
    exact ⟨q, hq, hcl, hrestmin _ hM⟩
  · intro v q hv hvnvis
    apply popMin_mem_rest_of_ne _ _ _ hpop _ (hinv.hpend v q hv hvnvis)
    intro h
    have hv1 : v = e.1 := congrArg Prod.fst h
    rw [hv1] at hvnvis
    exact hvnvis hstale

theorem spf_step_old_active (adj : String → List (String × ℚ)) (K : List String)
    (s : String) (st : SpfStateOld) (e : String × ℚ) (rest : List (String × ℚ))
    (hnn : NonnegAdj adj) (hinv : OInv adj s K st)
    (hpop : popMin st.pq = some (e, rest)) (hact : ¬ e.1 ∈ st.visited) :
    OInv adj s K (relaxAllOld s e.1 e.2 (adj e.1)
      { st with pq := rest, visited := e.1 :: st.visited }) ∧
    (relaxAllOld s e.1 e.2 (adj e.1)
      { st with pq := rest, visited := e.1 :: st.visited }).visited
        = e.1 :: st.visited ∧
    (relaxAllOld s e.1 e.2 (adj e.1)
      { st with pq := rest, visited := e.1 :: st.visited }).pq.length + 1 ≤
      st.pq.length + (adj e.1).length := by
  obtain ⟨hp0, hkey, hle⟩ := hinv.hentries e (popMin_spec _ _ _ hpop).1
  obtain ⟨q, hq, hqle⟩ := stored_finite_of_le st.dist e.1 e.2 hkey hle
  have hqpq : (e.1, q) ∈ st.pq := hinv.hpend e.1 q hq hact
  have hpleq : e.2 ≤ q := (popMin_spec _ _ _ hpop).2.1 (e.1, q) hqpq
  have hstored : alookup st.dist e.1 = some ((e.2 : ℚ) : WithTop ℚ) := by
    have hqe : q = e.2 := le_antisymm hqle hpleq
    rwa [hqe] at hq
  have hminW := popMin_minW _ _ _ hpop
  have hrestmin : ∀ w : WithTop ℚ, w ≤ pqMinW st.pq → w ≤ pqMinW rest := by
    intro w hw
    apply le_pqMinW
    intro x hx
    exact le_trans hw (pqMinW_le_of_mem _ _ (popMin_rest_mem _ _ _ hpop x hx))
  have hinv1 : RelaxInvOld adj s K e.1 e.2
      { st with pq := rest, visited := e.1 :: st.visited } := by
    refine ⟨hinv.hkeys, hinv.hdist_s, hinv.hsound, ?_, hstored,
      List.mem_cons_self _ _, ?_, ?_, ?_⟩
    · intro x hx
      exact hinv.hentries x (popMin_rest_mem _ _ _ hpop x hx)
    · intro v hvvis hvu
      have hv2 : v ∈ st.visited := by
        rcases List.mem_cons.mp hvvis with h | h
        · exact absurd h hvu
        · exact h
      obtain ⟨qv, hqv, hcl, hM⟩ := hinv.hvis v hv2
      refine ⟨qv, hqv, hcl, hrestmin _ hM, ?_⟩
      have hMe := le_trans hM (pqMinW_le_of_mem _ _ (popMin_spec _ _ _ hpop).1)
      exact WithTop.coe_le_coe.mp hMe
    · intro v q' hv hvnvis
      have hvne : ¬ v = e.1 := fun h => hvnvis (h ▸ List.mem_cons_self _ _)
      have hv2 : ¬ v ∈ st.visited := fun h => hvnvis (List.mem_cons_of_mem _ h)
      apply popMin_mem_rest_of_ne _ _ _ hpop _ (hinv.hpend v q' hv hv2)
      intro h
      exact hvne (congrArg Prod.fst h)
    · apply hrestmin
      rw [hminW]
  obtain ⟨hinvF, hptF, hdoneF, hlenF, hvisF⟩ :=
    relaxGoOld adj K s e.1 e.2 hnn hp0 (adj e.1)
      { st with pq := rest, visited := e.1 :: st.visited } (fun wc hwc => hwc) hinv1
  refine ⟨⟨hinvF.hkeys, hinvF.hdist_s, hinvF.hsound, hinvF.hentries, ?_, ?_⟩, hvisF, ?_⟩
  · intro v hvvis
    by_cases hvu : v = e.1
    · subst hvu
      exact ⟨e.2, hinvF.hu, fun wc hwc => hdoneF wc hwc, hinvF.hminp⟩
    · obtain ⟨qv, hqv, hcl, hM, -⟩ := hinvF.hvis' v hvvis hvu
      exact ⟨qv, hqv, hcl, hM⟩
  · intro v q' hv hvnvis
    exact hinvF.hpend' v q' hv hvnvis
  · have hplen := popMin_length _ _ _ hpop
    dsimp only at hlenF
    unfold relaxAllOld
    omega

/-! Termination and full run of the older loop. -/

theorem spfPhiOld_dec_stale (adj : String → List (String × ℚ)) (st : SpfStateOld)
    (e : String × ℚ) (rest : List (String × ℚ)) (hpop : popMin st.pq = some (e, rest)) :
    spfPhiOld adj { st with pq := rest } < spfPhiOld adj st := by
  unfold spfPhiOld
  dsimp only
  have := popMin_length _ _ _ hpop
  omega

theorem spfPhiOld_dec_active (adj : String → List (String × ℚ)) (K : List String)
    (s : String) (st : SpfStateOld) (e : String × ℚ) (rest : List (String × ℚ))
    (hnn : NonnegAdj adj) (hinv : OInv adj s K st)
    (hpop : popMin st.pq = some (e, rest)) (hact : ¬ e.1 ∈ st.visited) :
    spfPhiOld adj (relaxAllOld s e.1 e.2 (adj e.1)
      { st with pq := rest, visited := e.1 :: st.visited }) < spfPhiOld adj st := by
  obtain ⟨hinvO, hvisF, hlen⟩ := spf_step_old_active adj K s st e rest hnn hinv hpop hact
  unfold spfPhiOld
  have hkeq : akeys (relaxAllOld s e.1 e.2 (adj e.1)
      { st with pq := rest, visited := e.1 :: st.visited }).dist = akeys st.dist := by
    rw [hinvO.hkeys, hinv.hkeys]
  rw [hkeq, hvisF]
  have he1 : e.1 ∈ akeys st.dist :=
    (alookup_isSome_iff_akeys _ _).mp (hinv.hentries e (popMin_spec _ _ _ hpop).1).2.1
  have hdrop := sum_filter_drop (akeys st.dist) (fun v => 1 + (adj v).length)
    (fun v => ! decide (v ∈ e.1 :: st.visited)) (fun v => ! decide (v ∈ st.visited))
    ?_ e.1 he1 ?_ ?_
  · dsimp only at hdrop
    omega
  · intro v hvK hpv
    simp only [Bool.not_eq_true', decide_eq_false_iff_not] at hpv ⊢
    exact fun h => hpv (List.mem_cons_of_mem _ h)
  · show (! decide (e.1 ∈ st.visited)) = true
    rw [Bool.not_eq_true', decide_eq_false_iff_not]
    exact hact
  · show (! decide (e.1 ∈ e.1 :: st.visited)) = false
    rw [Bool.not_eq_false', decide_eq_true_eq]
    exact List.mem_cons_self _ _

theorem spfLoopOld_spec (adj : String → List (String × ℚ)) (s : String) (K : List String)
    (hnn : NonnegAdj adj) :
    ∀ (fuel : ℕ) (st : SpfStateOld), OInv adj s K st → spfPhiOld adj st ≤ fuel →
      OInv adj s K (spfLoopOld adj s fuel st) ∧ (spfLoopOld adj s fuel st).pq = [] := by
  intro fuel
  induction fuel with
  | zero =>
    intro st hinv hphi
    have hlen : st.pq.length = 0 := by
      unfold spfPhiOld at hphi
      omega
    exact ⟨hinv, List.length_eq_zero.mp hlen⟩
  | succ fuel ih =>
    intro st hinv hphi
    cases hpop : popMin st.pq with
    | none =>
      simp only [spfLoopOld, hpop]
      exact ⟨hinv, (popMin_eq_none_iff _).mp hpop⟩
    | some er =>
      obtain ⟨e, rest⟩ := er
      simp only [spfLoopOld, hpop]
      by_cases hstale : e.1 ∈ st.visited
      · rw [if_pos hstale]
        apply ih
        · exact spf_step_old_stale adj K s st e rest hinv hpop hstale
        · have := spfPhiOld_dec_stale adj st e rest hpop
          omega
      · rw [if_neg hstale]
        apply ih
        · exact (spf_step_old_active adj K s st e rest hnn hinv hpop hstale).1
        · have := spfPhiOld_dec_active adj K s st e rest hnn hinv hpop hstale
          omega


/-! Initial and final states of the older calculator. -/

theorem spfInitOld_inv (adj : String → List (String × ℚ)) (allIDs : List String)
    (s : String) :
    OInv adj s (akeys (spfInit allIDs s).dist) (spfInitOld allIDs s) := by
  have hInit := spfInit_inv adj allIDs s
  refine ⟨rfl, hInit.hdist_s, hInit.hsound, hInit.hentries, ?_, ?_⟩
  · intro v hv
    exact absurd hv (List.not_mem_nil v)
  · intro v q hv hnvis
    have hv' : alookup (spfInit allIDs s).dist v = some ((q : ℚ) : WithTop ℚ) := hv
    rw [spfInit_dist] at hv'
    by_cases h1 : v = s
    · rw [if_pos h1] at hv'
      have hq0 : (0 : ℚ) = q := by exact_mod_cast Option.some.inj hv'
      subst h1
      rw [← hq0]
      exact List.mem_singleton_self _
    · rw [if_neg h1] at hv'
      by_cases h2 : v ∈ allIDs
      · rw [if_pos h2] at hv'
        exact absurd (Option.some.inj hv').symm (by simp)
      · rw [if_neg h2] at hv'
        cases hv'

theorem spfPhiOld_le_fuel (adj : String → List (String × ℚ))
    (st : SpfStateOld) (hpq : st.pq.length ≤ 1) :
    spfPhiOld adj st ≤ spfFuel st.dist adj := by
  unfold spfPhiOld spfFuel
  have h1 : (((akeys st.dist).filter fun v => ! decide (v ∈ st.visited)).map
      fun v => 1 + (adj v).length).sum ≤
      ((akeys st.dist).map fun v => 1 + (adj v).length).sum := by
    have := sum_filter_imp (akeys st.dist) (fun v => 1 + (adj v).length)
      (fun v => ! decide (v ∈ st.visited)) (fun _ => true) (fun v _ _ => rfl)
    simpa using this
  have h2 : ((akeys st.dist).map fun v => 1 + (adj v).length).sum =
      (st.dist.map fun kv => 1 + (adj kv.1).length).sum := by
    unfold akeys
    rw [List.map_map]
    rfl
  omega

theorem ComputeRoutesOld_fold (s : String) (t : Topology) (d : String) :
    (ComputeRoutesOld s t).GetRoute d =
      alookup (((spfFinalStateOld s t).dist.foldl
        (collectStepOld s (spfFinalStateOld s t))
        ({ sourceNode := s, routes := [] } : RouteTableOld)).routes) d := rfl

theorem spfFinalStateOld_inv (s : String) (t : Topology) (hnn : NonnegAdj t.adj) :
    OInv t.adj s (akeys (spfInit (allIDsOf t) s).dist) (spfFinalStateOld s t) ∧
      (spfFinalStateOld s t).pq = [] :=
  spfLoopOld_spec t.adj s (akeys (spfInit (allIDsOf t) s).dist) hnn
    (spfFuel (spfInitOld (allIDsOf t) s).dist t.adj) (spfInitOld (allIDsOf t) s)
    (spfInitOld_inv t.adj (allIDsOf t) s)
    (spfPhiOld_le_fuel t.adj (spfInitOld (allIDsOf t) s) (le_refl 1))

theorem spfFinalOld_closed (s : String) (t : Topology) (hnn : NonnegAdj t.adj) :
    ∀ v q, alookup (spfFinalStateOld s t).dist v = some ((q : ℚ) : WithTop ℚ) →
      ClosedAt t.adj (spfFinalStateOld s t).dist v q := by
  intro v q hv
  obtain ⟨hinv, hpq⟩ := spfFinalStateOld_inv s t hnn
  by_cases hvis : v ∈ (spfFinalStateOld s t).visited
  · obtain ⟨qv, hqv, hcl, -⟩ := hinv.hvis v hvis
    have hqq : qv = q := by
      have := hqv.symm.trans hv
      exact_mod_cast Option.some.inj this
    rwa [hqq] at hcl
  · have hpend := hinv.hpend v q hv hvis
    rw [hpq] at hpend
    cases hpend

theorem spfFinalOld_le_walk (s : String) (t : Topology) (hnn : NonnegAdj t.adj)
    {d : String} {c : ℚ}
    (hw : IsWalk (adjRestrict t.adj (akeys (spfInit (allIDsOf t) s).dist)) s d c) :
    distLookup (spfFinalStateOld s t).dist d ≤ ((c : ℚ) : WithTop ℚ) := by
  obtain ⟨hinv, hpq⟩ := spfFinalStateOld_inv s t hnn
  have h0 : distLookup (spfFinalStateOld s t).dist s ≤ ((0 : ℚ) : WithTop ℚ) := by
    rw [distLookup_stored _ _ _ hinv.hdist_s]
  have hle := dist_le_walk t.adj (akeys (spfInit (allIDsOf t) s).dist)
    (spfFinalStateOld s t).dist hinv.hkeys (spfFinalOld_closed s t hnn) hw 0 h0
  rwa [zero_add] at hle

theorem spfFinalOld_shortest (s : String) (t : Topology) (hnn : NonnegAdj t.adj)
    {d : String} {q : ℚ}
    (hd : alookup (spfFinalStateOld s t).dist d = some ((q : ℚ) : WithTop ℚ)) :
    IsShortest (adjRestrict t.adj (akeys (spfInit (allIDsOf t) s).dist)) s d q := by
  obtain ⟨hinv, hpq⟩ := spfFinalStateOld_inv s t hnn
  refine ⟨(hinv.hsound d q hd).2, ?_⟩
  intro c hc
  have hle := spfFinalOld_le_walk s t hnn hc
  rw [distLookup_stored _ _ _ hd] at hle
  exact_mod_cast hle

theorem spfFinalOld_complete (s : String) (t : Topology) (hnn : NonnegAdj t.adj)
    {d : String} (hdk : d ∈ akeys (spfInit (allIDsOf t) s).dist) {c : ℚ}
    (hw : IsWalk (adjRestrict t.adj (akeys (spfInit (allIDsOf t) s).dist)) s d c) :
    ∃ q : ℚ, alookup (spfFinalStateOld s t).dist d = some ((q : ℚ) : WithTop ℚ) ∧
      q ≤ c := by
  obtain ⟨hinv, -⟩ := spfFinalStateOld_inv s t hnn
  have hkey : (alookup (spfFinalStateOld s t).dist d).isSome = true := by
    rw [alookup_isSome_iff_akeys, hinv.hkeys]
    exact hdk
  exact stored_finite_of_le _ _ _ hkey (spfFinalOld_le_walk s t hnn hw)

theorem spfFinalOld_keys_nodup (s : String) (t : Topology) (hnn : NonnegAdj t.adj) :
    (akeys (spfFinalStateOld s t).dist).Nodup := by
  obtain ⟨hinv, -⟩ := spfFinalStateOld_inv s t hnn
  rw [hinv.hkeys]
  exact spfInit_keys_nodup (allIDsOf t) s

/-- The two calculators end with pointwise-equal distance maps: both are
`⊤`-initialized over the same key set and both settle every key at its
restricted shortest-path cost (unique), keeping `⊤` exactly on the
restricted-unreachable keys. -/
theorem old_new_dist_agree (s : String) (t : Topology) (hnn : NonnegAdj t.adj)
    (d : String) :
    alookup (spfFinalStateOld s t).dist d = alookup (spfFinalState s t).dist d := by
  obtain ⟨hinvO, -⟩ := spfFinalStateOld_inv s t hnn
  obtain ⟨hinvN, -⟩ := spfFinalState_inv s t hnn
  by_cases hk : d ∈ akeys (spfInit (allIDsOf t) s).dist
  · by_cases hr : ReachableW (adjRestrict t.adj (akeys (spfInit (allIDsOf t) s).dist)) s d
    · obtain ⟨c, hw⟩ := hr
      obtain ⟨qO, hqO, -⟩ := spfFinalOld_complete s t hnn hk hw
      obtain ⟨qN, hqN, -⟩ := spfFinal_complete s t hnn hk hw
      have hSO := spfFinalOld_shortest s t hnn hqO
      have hSN := spfFinal_shortest s t hnn hqN
      rw [hqO, hqN, IsShortest_unique hSO hSN]
    · have hO : alookup (spfFinalStateOld s t).dist d = some ⊤ := by
        have hkey : (alookup (spfFinalStateOld s t).dist d).isSome = true := by
          rw [alookup_isSome_iff_akeys, hinvO.hkeys]
          exact hk
        obtain ⟨w, hw⟩ := Option.isSome_iff_exists.mp hkey
        cases w with
        | top => exact hw
        | coe q =>
          exfalso
          exact hr ⟨q, (hinvO.hsound d q hw).2⟩
      have hN : alookup (spfFinalState s t).dist d = some ⊤ := by
        have hkey : (alookup (spfFinalState s t).dist d).isSome = true := by
          rw [alookup_isSome_iff_akeys, hinvN.hkeys]
          exact hk
        obtain ⟨w, hw⟩ := Option.isSome_iff_exists.mp hkey
        cases w with
        | top => exact hw
        | coe q =>
          exfalso
          exact hr ⟨q, (hinvN.hsound d q hw).2⟩
      rw [hO, hN]
  · have hO : alookup (spfFinalStateOld s t).dist d = none := by
      cases hll : alookup (spfFinalStateOld s t).dist d with
      | none => rfl
      | some w =>
        exfalso
        apply hk
        rw [← hinvO.hkeys, ← alookup_isSome_iff_akeys, hll]
        rfl
    have hN : alookup (spfFinalState s t).dist d = none := by
      cases hll : alookup (spfFinalState s t).dist d with
      | none => rfl
      | some w =>
        exfalso
        apply hk
        rw [← hinvN.hkeys, ← alookup_isSome_iff_akeys, hll]
        rfl
    rw [hO, hN]


/-! Claim C10. -/

/-- C10: the two SPF calculators — the older visited-set variant and the
newer lazy-deletion variant — agree on the `{destination, cost}` pairs
for every topology with non-negative stored costs and every source:
looking up any destination yields the same cost (or absence) in both
tables. -/
theorem claim_C10 (t : Topology) (s : String) (hnn : t.NonnegCosts) (d : String) :
    ((ComputeRoutes s t).GetRoute d).map Route.Cost =
      ((ComputeRoutesOld s t).GetRoute d).map RouteOld.Cost := by
  have hA := nonnegAdj_of_costs hnn
  have hagree := old_new_dist_agree s t hA d
  have hndN := spfFinal_keys_nodup s t hA
  have hndO := spfFinalOld_keys_nodup s t hA
  by_cases hds : d = s
  · subst hds
    rw [ComputeRoutes_fold, collect_pres_src, ComputeRoutesOld_fold, collect_old_pres_src]
    rfl
  · cases hd : alookup (spfFinalState s t).dist d with
    | none =>
      have hdO : alookup (spfFinalStateOld s t).dist d = none := by
        rw [hagree, hd]
      rw [ComputeRoutes_fold, collect_pres_none s _ d _ _ hd,
        ComputeRoutesOld_fold, collect_old_pres_none s _ d _ _ hdO]
      rfl
    | some w =>
      cases w with
      | top =>
        have hdO : alookup (spfFinalStateOld s t).dist d = some ⊤ := by
          rw [hagree, hd]
        rw [ComputeRoutes_fold, collect_pres_top s _ d _ _ hndN hd,
          ComputeRoutesOld_fold, collect_old_pres_top s _ d _ _ hndO hdO]
        rfl
      | coe q =>
        have hdO : alookup (spfFinalStateOld s t).dist d =
            some ((q : ℚ) : WithTop ℚ) := by
          rw [hagree, hd]
        have hN := collect_fin s (spfFinalState s t) d q hds
          (spfFinalState s t).dist (NewRouteTable s) hndN hd
        have hO := collect_old_fin s (spfFinalStateOld s t) d q hds
          (spfFinalStateOld s t).dist ({ sourceNode := s, routes := [] }) hndO hdO
        rw [ComputeRoutes_fold, hN, ComputeRoutesOld_fold, hO]
        rfl

/-- Witness for C10: the two calculators agree on the triangle example's
route cost to C. -/
theorem claim_C10_witness :
    tEx.NonnegCosts ∧
    ((ComputeRoutes "A" tEx).GetRoute "C").map Route.Cost =
      ((ComputeRoutesOld "A" tEx).GetRoute "C").map RouteOld.Cost :=
  ⟨show ∀ r ∈ tEx.edges, ∀ p ∈ r.2, (0 : ℚ) ≤ p.2 by decide,
    claim_C10 tEx "A" (show ∀ r ∈ tEx.edges, ∀ p ∈ r.2, (0 : ℚ) ≤ p.2 by decide) "C"⟩

end Spfnet
